import Mathlib

/-!
# Verification of the ssh-manager SSH config core

Shallow embedding of the ssh_manager repository's SSH host-config core:
the tokenizer and parser (`ssh_config/parser.py`), the entity model and
serializer (`ssh_config/builder.py`), the choice resolver
(`SSHHostConfig.__init__` with a `SSHHostConfigChoice`), and the
full-document renderer (`SSHManager.render_ssh_config`).

Strings are modelled as Lean `String`s, manipulated through their
underlying `List Char`; Python's `None`-able strings become
`Option String`; Python exceptions become an explicit `PyErr` error type
carried in `Except`.  Token line/column counters are diagnostic-only in
the source (they never influence parsing decisions or results) and are
elided.  The whitespace and word-character classes are modelled over the
ASCII range that the config format uses.
-/

namespace SshManager

/-- Python's whitespace class `\s` restricted to ASCII
(space, tab, newline, carriage return, vertical tab, form feed). -/
def pyIsSpace (c : Char) : Bool :=
  c = ' ' || c = '\t' || c = '\n' || c = '\r' || c = '\x0b' || c = '\x0c'

/-- Python's word-character class `\w` (for `\b` boundaries), ASCII range:
letters, digits and underscore. -/
def isWordChar (c : Char) : Bool :=
  c.isAlphanum || c = '_'

/-- `str.strip()` on the character list: drop whitespace from both ends. -/
def pyStripData (l : List Char) : List Char :=
  ((l.dropWhile pyIsSpace).reverse.dropWhile pyIsSpace).reverse

/-- Python `str.strip()`. -/
def pyStrip (s : String) : String :=
  String.mk (pyStripData s.data)

/-- `s[1:]` on a Python string. -/
def pySlice1 (s : String) : String :=
  String.mk (s.data.drop 1)

/-- `get_stripped_string_or_none` from `builder.py`:
`str(s).strip() if s else None`.  An absent or empty (falsy) string gives
`None`; otherwise the stripped string. -/
def strOrNone : Option String → Option String
  | none => none
  | some s => if s = "" then none else some (pyStrip s)

/-- `get_int_or_none` from `builder.py` applied to an integer-valued field:
`int(s) if s else None`; `0` is falsy in Python. -/
def intOrNone : Option Int → Option Int
  | none => none
  | some p => if p = 0 then none else some p

/-- Python truthiness of an optional string: `None` and `""` are falsy. -/
def truthy : Option String → Bool
  | none => false
  | some s => s ≠ ""

/-- `is_none_or_empty` from `builder.py`: `s is None or s.strip() == ""`. -/
def isNoneOrEmpty : Option String → Bool
  | none => true
  | some s => pyStrip s = ""

/-- `"sep".join(strings)` in Python. -/
def pyJoin (sep : String) : List String → String
  | [] => ""
  | [x] => x
  | x :: y :: xs => x ++ sep ++ pyJoin sep (y :: xs)

/-- `str.rstrip()` on the character list. -/
def pyRstripData (l : List Char) : List Char :=
  (l.reverse.dropWhile pyIsSpace).reverse

/-- Python `str.rstrip()`. -/
def pyRstrip (s : String) : String :=
  String.mk (pyRstripData s.data)

/-! ## Python decimal integer literals

`int(str)` on a CPython string accepts an optional sign followed by a
digit sequence in which single underscores may separate digits.  The
values fed to `int` in this code base are single `\S+` tokens, so the
surrounding-whitespace tolerance of `int` never comes into play. -/

/-- Digit run with single underscores allowed between digits,
accumulating the value. -/
def pyDigitsCore : Nat → List Char → Option Nat
  | acc, [] => some acc
  | acc, c :: cs =>
    if c.isDigit then pyDigitsCore (acc * 10 + (c.toNat - 48)) cs
    else if c = '_' then
      match cs with
      | [] => none
      | d :: cs' =>
        if d.isDigit then pyDigitsCore (acc * 10 + (d.toNat - 48)) cs'
        else none
    else none

/-- Digit sequence that must start with a digit. -/
def pyDigitsStart : List Char → Option Nat
  | [] => none
  | c :: cs => if c.isDigit then pyDigitsCore (c.toNat - 48) cs else none

/-- `int(s)` on a whitespace-free string: `some n` on success, `none` when
Python would raise `ValueError`. -/
def pyIntParse (s : String) : Option Int :=
  match s.data with
  | [] => none
  | c :: rest =>
    if c = '-' then (pyDigitsStart rest).map (fun n => -(n : Int))
    else if c = '+' then (pyDigitsStart rest).map (fun n => (n : Int))
    else (pyDigitsStart (c :: rest)).map (fun n => (n : Int))

/-- Decimal digits of a natural number, most significant first; the first
argument is recursion fuel (any amount above the value suffices). -/
def natDigitsAux : Nat → Nat → List Char
  | 0, _ => []
  | fuel + 1, n =>
    if n < 10 then [Char.ofNat (48 + n)]
    else natDigitsAux fuel (n / 10) ++ [Char.ofNat (48 + n % 10)]

/-- Decimal digits of a natural number, most significant first
(`str(n)` for `n ≥ 0`). -/
def natDigits (n : Nat) : List Char :=
  natDigitsAux (n + 1) n

/-- Python `str(i)` for an integer. -/
def pyIntToString (i : Int) : String :=
  if i < 0 then String.mk ('-' :: natDigits i.natAbs)
  else String.mk (natDigits i.natAbs)

/-! ## POSIX path primitives: `os.path.join`, `os.path.normpath` -/

/-- Two-argument POSIX `os.path.join`. -/
def pyPathJoin (a b : String) : String :=
  if b.data.head? = some '/' then b
  else if a = "" || a.data.getLast? = some '/' then a ++ b
  else a ++ "/" ++ b

/-- Three-argument POSIX `os.path.join`. -/
def pyPathJoin3 (a b c : String) : String :=
  pyPathJoin (pyPathJoin a b) c

/-- Split a character list on `/` (Python `str.split("/")`). -/
def splitSlash : List Char → List (List Char)
  | [] => [[]]
  | c :: cs =>
    let rest := splitSlash cs
    if c = '/' then [] :: rest
    else
      match rest with
      | [] => [[c]]
      | r :: rs => (c :: r) :: rs

/-- One step of POSIX `normpath` component filtering. -/
def normStep (initialSlashes : Nat) (acc : List (List Char)) (comp : List Char) :
    List (List Char) :=
  if comp = [] || comp = ['.'] then acc
  else if comp ≠ ['.', '.'] || (initialSlashes = 0 && acc = []) ||
      (acc ≠ [] && acc.getLast? = some ['.', '.']) then
    acc ++ [comp]
  else if acc ≠ [] then acc.dropLast
  else acc

/-- Interleave `/` between components. -/
def joinSlash : List (List Char) → List Char
  | [] => []
  | [x] => x
  | x :: y :: xs => x ++ '/' :: joinSlash (y :: xs)

/-- POSIX `os.path.normpath`. -/
def pyNormPath (p : String) : String :=
  if p = "" then "." else
  let d := p.data
  let initialSlashes : Nat :=
    if d.head? = some '/' then
      if d.take 2 = ['/', '/'] && d.take 3 ≠ ['/', '/', '/'] then 2 else 1
    else 0
  let comps := splitSlash d
  let newComps := comps.foldl (normStep initialSlashes) []
  let joined := List.replicate initialSlashes '/' ++ joinSlash newComps
  if joined = [] then "." else String.mk joined

/-- `get_identifier_file_path` from `builder.py`: place the file name of
`original` under `ssh_directory/server_name`, normalized. -/
def get_identifier_file_path (ssh_directory server_name original : String) : String :=
  let segs := splitSlash original.data
  let fileName := String.mk (segs.getLast?.getD [])
  pyNormPath (pyPathJoin3 ssh_directory server_name fileName)

end SshManager

namespace SshManager

/-! ## Error model

Every failure in the core is a raised Python exception; the constructors
record which raise site fired (and the data its message interpolates). -/

/-- Exceptions raised by the core. -/
inductive PyErr where
  /-- Lexer `ValueError`: no token class matched ("Unexpected character"). -/
  | lexError : PyErr
  /-- Parser grammar `ValueError`s (`Expected ...` messages). -/
  | parseError (msg : String) : PyErr
  /-- `int(value)` failed inside `SSHEndpoint.add_config` / constructor. -/
  | intParseError (s : String) : PyErr
  /-- `SSHHostConfig name is None` on serialization. -/
  | missingName : PyErr
  /-- `SSHExtraConfig key is None` on serialization. -/
  | missingKey : PyErr
  /-- `SSHExtraConfig value is None` on serialization. -/
  | missingValue : PyErr
  /-- `SSHHostConfigChoice endpoint_id out of range`. -/
  | endpointOutOfRange (id : Int) : PyErr
  /-- `SSHHostConfigChoice auth_id out of range`. -/
  | authOutOfRange (id : Int) : PyErr
  /-- Python `IndexError`/`TypeError` from unguarded operations. -/
  | indexError : PyErr
  /-- `TypeError` (e.g. `os.path.join` with `None`). -/
  | typeError : PyErr
  deriving DecidableEq, Repr

/-! ## Entity model (`builder.py`) -/

/-- `SSHEndpoint`: network target of one host. -/
structure SSHEndpoint where
  hostname : Option String
  port : Option Int
  comment : Option String
  deriving DecidableEq, Repr

/-- The default `SSHEndpoint()`. -/
def SSHEndpoint.empty : SSHEndpoint := ⟨none, none, none⟩

/-- `SSHAuthentication`: credential binding of one host.  The
`ssh_directory`/`server_name` constructor arguments only feed the path
derivation and are not part of the entity's observable value. -/
structure SSHAuthentication where
  user : Option String
  original_identity_file : Option String
  identity_file : Option String
  comment : Option String
  deriving DecidableEq, Repr

/-- The default `SSHAuthentication()`. -/
def SSHAuthentication.empty : SSHAuthentication := ⟨none, none, none, none⟩

/-- `SSHExtraConfig`: an unrecognized directive. -/
structure SSHExtraConfig where
  key : Option String
  value : Option String
  comment : Option String
  deriving DecidableEq, Repr

/-- `SSHExtraConfig(key, value, comment)` positional constructor:
each field goes through `get_stripped_string_or_none`. -/
def SSHExtraConfig.init (key value comment : Option String) : SSHExtraConfig :=
  ⟨strOrNone key, strOrNone value, strOrNone comment⟩

/-- `SSHHostConfig`: one `Host` block. -/
structure SSHHostConfig where
  name : Option String
  comment : Option String
  endpoint : SSHEndpoint
  authentication : SSHAuthentication
  extra_config : List SSHExtraConfig
  deriving DecidableEq, Repr

/-- `SSHHostConfig(name, comment)` constructor (positional path, no
choice): strips the name and comment, defaults the components. -/
def SSHHostConfig.init (name comment : Option String) : SSHHostConfig :=
  ⟨strOrNone name, strOrNone comment, SSHEndpoint.empty, SSHAuthentication.empty, []⟩

/-- `add_comment` shared by `SSHEndpoint`/`SSHAuthentication`:
`self.comment = self.comment + " " + comment if self.comment else comment`. -/
def addComment (cur : Option String) (c : String) : Option String :=
  match cur with
  | some s => if s ≠ "" then some (s ++ " " ++ c) else some c
  | none => some c

/-- `SSHEndpoint.add_config`: recognizes `HostName` and `Port`,
returns whether it handled the key; `Port` runs `int(value)`, which can
raise. -/
def SSHEndpoint.addConfig (e : SSHEndpoint) (key value comment : String) :
    Except PyErr (Bool × SSHEndpoint) :=
  if key = "HostName" || key = "Port" then
    if key = "HostName" then
      .ok (true, { e with hostname := some value, comment := addComment e.comment comment })
    else
      match pyIntParse value with
      | some p => .ok (true, { e with port := some p, comment := addComment e.comment comment })
      | none => .error (.intParseError value)
  else .ok (false, e)

/-- `SSHAuthentication.add_config`: recognizes `User` and `IdentityFile`;
`IdentityFile` stores the literal value and clears
`original_identity_file`. -/
def SSHAuthentication.addConfig (a : SSHAuthentication) (key value comment : String) :
    Bool × SSHAuthentication :=
  if key = "User" || key = "IdentityFile" then
    if key = "User" then
      (true, { a with user := some value, comment := addComment a.comment comment })
    else
      (true, { a with identity_file := some value, original_identity_file := none,
                      comment := addComment a.comment comment })
  else (false, a)

/-- `SSHHostConfig.add_config`: dispatch to the endpoint, then the
authentication, then fall through to a fresh `SSHExtraConfig`. -/
def SSHHostConfig.addConfig (cfg : SSHHostConfig) (key value comment : String) :
    Except PyErr SSHHostConfig := do
  let (handled, ep) ← cfg.endpoint.addConfig key value comment
  if handled then
    .ok { cfg with endpoint := ep }
  else
    let (handled2, au) := cfg.authentication.addConfig key value comment
    if handled2 then
      .ok { cfg with authentication := au }
    else
      .ok { cfg with extra_config :=
              cfg.extra_config ++ [SSHExtraConfig.init (some key) (some value) (some comment)] }

/-! ## Serialization (`to_string` methods) -/

/-- `get_string_with_indent`: tab indentation. -/
def withIndent (indent : Nat) (s : String) : String :=
  String.mk (List.replicate indent '\t') ++ s

/-- Comment line of `SSHEndpoint`/`SSHAuthentication`/`SSHExtraConfig`
(`__gen_comment_str`): omitted when none or whitespace-only. -/
def genCommentStr (indent : Nat) (c : Option String) : String :=
  if isNoneOrEmpty c then "" else withIndent indent ("# " ++ c.getD "" ++ "\n")

/-- `SSHEndpoint.to_string`. -/
def SSHEndpoint.toDirString (e : SSHEndpoint) (indent : Nat) : String :=
  genCommentStr indent e.comment ++
  (if isNoneOrEmpty e.hostname then ""
   else withIndent indent ("HostName " ++ e.hostname.getD "" ++ "\n")) ++
  (match e.port with
   | none => ""
   | some p => withIndent indent ("Port " ++ pyIntToString p ++ "\n"))

/-- `SSHAuthentication.to_string`. -/
def SSHAuthentication.toDirString (a : SSHAuthentication) (indent : Nat) : String :=
  genCommentStr indent a.comment ++
  (if isNoneOrEmpty a.user then ""
   else withIndent indent ("User " ++ a.user.getD "" ++ "\n")) ++
  (if isNoneOrEmpty a.identity_file then ""
   else withIndent indent ("IdentityFile " ++ a.identity_file.getD "" ++ "\n"))

/-- `SSHExtraConfig.to_string`: the directive line itself fails when key
or value is absent. -/
def SSHExtraConfig.toDirString (x : SSHExtraConfig) (indent : Nat) :
    Except PyErr String :=
  match x.key with
  | none => .error .missingKey
  | some k =>
    match x.value with
    | none => .error .missingValue
    | some v => .ok (genCommentStr indent x.comment ++ withIndent indent (k ++ " " ++ v ++ "\n"))

/-- Host comment line (`SSHHostConfig.__gen_comment_str`): checks
`None`/zero length only (no strip, unlike the component comments). -/
def hostCommentStr (indent : Nat) (c : Option String) : String :=
  match c with
  | none => ""
  | some s => if s.length = 0 then "" else withIndent indent ("# " ++ s ++ "\n")

/-- Render the extra-directive list in order. -/
def renderExtras (indent : Nat) : List SSHExtraConfig → Except PyErr String
  | [] => .ok ""
  | x :: xs => do
    let s ← x.toDirString indent
    let rest ← renderExtras indent xs
    .ok (s ++ rest)

/-- `SSHHostConfig.to_string`: comment, `Host` header (fails when name is
`None`), then components at `indent + 1`. -/
def SSHHostConfig.toDirString (cfg : SSHHostConfig) (indent : Nat) :
    Except PyErr String :=
  match cfg.name with
  | none => .error .missingName
  | some n => do
    let extras ← renderExtras (indent + 1) cfg.extra_config
    .ok (hostCommentStr indent cfg.comment ++
         withIndent indent ("Host " ++ n ++ "\n") ++
         cfg.endpoint.toDirString (indent + 1) ++
         cfg.authentication.toDirString (indent + 1) ++
         extras)

end SshManager

namespace SshManager

/-! ## Remote descriptor model and choice resolver

A descriptor record is the JSON object read from the key repository's
`config.json`.  An `Option` at the record level models whether the key is
present in the dict (`"Endpoint" in dict` etc.). -/

/-- One element of a descriptor's `Endpoint` array. -/
structure EndpointDict where
  HostName : Option String := none
  Port : Option Int := none
  Comment : Option String := none
  deriving DecidableEq, Repr

/-- One element of a descriptor's `Authentication` array. -/
structure AuthDict where
  User : Option String := none
  IdentityFile : Option String := none
  Comment : Option String := none
  deriving DecidableEq, Repr

/-- One element of a descriptor's `ExtraConfig` array. -/
structure ExtraDict where
  Key : Option String := none
  Value : Option String := none
  Comment : Option String := none
  deriving DecidableEq, Repr

/-- A remote host descriptor record. -/
structure ServerDict where
  ServerName : Option String := none
  Comment : Option String := none
  Endpoint : Option (List EndpointDict) := none
  Authentication : Option (List AuthDict) := none
  ExtraConfig : Option (List ExtraDict) := none
  deriving DecidableEq, Repr

/-- `SSHEndpoint(dict=...)` dict constructor. -/
def mkEndpointFromDict (d : EndpointDict) : SSHEndpoint :=
  ⟨strOrNone d.HostName, intOrNone d.Port, strOrNone d.Comment⟩

/-- `SSHAuthentication(ssh_directory, server_name, dict=...)`: derives
`identity_file` from the stripped `IdentityFile` value when that value is
truthy.  A `None` server name reaches `os.path.join` and raises
`TypeError` in Python. -/
def mkAuthFromDict (ssh_directory : String) (server_name : Option String)
    (d : AuthDict) : Except PyErr SSHAuthentication := do
  let user := strOrNone d.User
  let orig := strOrNone d.IdentityFile
  let comment := strOrNone d.Comment
  let identity ←
    if truthy orig then
      match server_name with
      | some sn => pure (some (get_identifier_file_path ssh_directory sn (orig.getD "")))
      | none => Except.error PyErr.typeError
    else
      pure none
  .ok ⟨user, orig, identity, comment⟩

/-- `SSHExtraConfig(dict=...)` dict constructor. -/
def mkExtraFromDict (d : ExtraDict) : SSHExtraConfig :=
  ⟨strOrNone d.Key, strOrNone d.Value, strOrNone d.Comment⟩

/-- Python list indexing `l[i]`: negative indices select from the end;
out of range on either side raises `IndexError`. -/
def pyListGet (l : List α) (i : Int) : Option α :=
  if 0 ≤ i then l.get? i.toNat
  else if i.natAbs ≤ l.length then l.get? (l.length - i.natAbs)
  else none

/-- `SSHHostConfig(choice=SSHHostConfigChoice(mgr, dict, endpoint_id,
auth_id))`: the choice resolver.  `ssh_directory` stands for
`choice.ssh_mgr.get_ssh_directory()`.  Only `endpoint_id >= len` /
`auth_id >= len` raise the explicit out-of-range `ValueError`; the
subsequent Python indexing raises `IndexError` for indices below
`-len`. -/
def resolveChoice (ssh_directory : String) (d : ServerDict)
    (endpoint_id auth_id : Int) : Except PyErr SSHHostConfig := do
  let name : Option String :=
    match d.ServerName with
    | some s => strOrNone (some s)
    | none => none
  let comment : Option String :=
    match d.Comment with
    | some s => strOrNone (some s)
    | none => none
  let endpoint : SSHEndpoint ←
    match d.Endpoint with
    | none => pure SSHEndpoint.empty
    | some eps =>
      if endpoint_id ≥ (eps.length : Int) then
        Except.error (PyErr.endpointOutOfRange endpoint_id)
      else
        match pyListGet eps endpoint_id with
        | some e => pure (mkEndpointFromDict e)
        | none => Except.error PyErr.indexError
  let auth : SSHAuthentication ←
    match d.Authentication with
    | none => pure SSHAuthentication.empty
    | some aus =>
      if auth_id ≥ (aus.length : Int) then
        Except.error (PyErr.authOutOfRange auth_id)
      else
        match pyListGet aus auth_id with
        | some a => mkAuthFromDict ssh_directory name a
        | none => Except.error PyErr.indexError
  let extra : List SSHExtraConfig :=
    match d.ExtraConfig with
    | none => []
    | some xs => xs.map mkExtraFromDict
  .ok ⟨name, comment, endpoint, auth, extra⟩

/-! ## Full-document rendering (`SSHManager.render_ssh_config`) -/

/-- The sort key `cfg.name or ""`. -/
def sortKey (cfg : SSHHostConfig) : List Char :=
  match cfg.name with
  | none => []
  | some s => if s = "" then [] else s.data

/-- Python string `<`: lexicographic by code point. -/
def pyStrLt : List Char → List Char → Bool
  | [], [] => false
  | [], _ :: _ => true
  | _ :: _, [] => false
  | a :: as, b :: bs =>
    if a.toNat < b.toNat then true
    else if b.toNat < a.toNat then false
    else pyStrLt as bs

/-- Stable insertion of one config into an already-sorted list: a new
element goes after every element whose key is not greater (Python
`sorted` stability). -/
def insertByName (x : SSHHostConfig) : List SSHHostConfig → List SSHHostConfig
  | [] => [x]
  | y :: ys => if pyStrLt (sortKey x) (sortKey y) then x :: y :: ys else y :: insertByName x ys

/-- `sorted(configs, key=lambda cfg: cfg.name or "")`. -/
def sortConfigs (l : List SSHHostConfig) : List SSHHostConfig :=
  l.foldl (fun acc c => insertByName c acc) []

/-- The managed-file sentinel comment line. -/
def sentinel : String := "# This file is managed by ssh_manager"

/-- `SSHManager.render_ssh_config`: sort by name, emit the sentinel
header, a blank line before each block, each block rstripped, and a
trailing newline. -/
def render_ssh_config (configs : List SSHHostConfig) : Except PyErr String := do
  let sorted := sortConfigs configs
  let blocks ← sorted.mapM (fun cfg => (cfg.toDirString 0).map pyRstrip)
  .ok (pyJoin "\n" (sentinel :: (blocks.flatMap (fun b => ["", b])) ++ [""]))

end SshManager

namespace SshManager

/-! ## Tokenizer (`SSHConfigLexer`)

`get_token` tries the four classes in dict order — `COMMENT` (`#.*`),
`HOST` (`\bHost\b`), `ITEM` (`\S+`), `WHITESPACE` (`\s+`) — at the
current position, yields non-whitespace matches and skips whitespace.
`prev` is the character before the current position (the context `\b`
inspects).  The `Nat` argument is recursion fuel; the top-level wrapper
passes the input length, which every run has enough of since each step
consumes at least one character. -/

/-- Token classes the lexer can yield. -/
inductive TokKind where
  | comment
  | host
  | item
  deriving DecidableEq, Repr

/-- A yielded token (line/column diagnostics elided). -/
structure Tok where
  kind : TokKind
  text : String
  deriving DecidableEq, Repr

/-- Does `\bHost\b` match at the start of `cs` when the previous
character is `prev`? -/
def hostMatch (prev : Option Char) (cs : List Char) : Bool :=
  (match prev with | none => true | some p => !isWordChar p) &&
  cs.take 4 = "Host".data &&
  (match cs.get? 4 with | none => true | some c => !isWordChar c)

/-- The lexer loop.  The final `else` is the `raise ValueError` branch of
`get_token` (no class matched); the fuel-exhaustion case is a modelling
artifact, unreachable whenever the fuel is at least the input length. -/
def lexAux : Nat → Option Char → List Char → Except PyErr (List Tok)
  | _, _, [] => .ok []
  | 0, _, _ :: _ => .error .lexError
  | fuel + 1, prev, c :: cs =>
    if c = '#' then
      let body := c :: cs.takeWhile (fun x => x ≠ '\n')
      (lexAux fuel body.getLast? (cs.dropWhile (fun x => x ≠ '\n'))).map
        (fun ts => ⟨.comment, String.mk body⟩ :: ts)
    else if hostMatch prev (c :: cs) then
      (lexAux fuel (some 't') ((c :: cs).drop 4)).map
        (fun ts => ⟨.host, "Host"⟩ :: ts)
    else if !pyIsSpace c then
      let body := (c :: cs).takeWhile (fun x => !pyIsSpace x)
      (lexAux fuel body.getLast? ((c :: cs).dropWhile (fun x => !pyIsSpace x))).map
        (fun ts => ⟨.item, String.mk body⟩ :: ts)
    else if pyIsSpace c then
      let ws := (c :: cs).takeWhile pyIsSpace
      lexAux fuel ws.getLast? ((c :: cs).dropWhile pyIsSpace)
    else
      .error .lexError

/-- Tokenize a whole source string. -/
def lexString (s : String) : Except PyErr (List Tok) :=
  lexAux s.data.length none s.data

/-! ## Parser (`SSHConfigParser`)

The Python parser pulls tokens lazily with two-token lookahead; since
lexing is pure and cannot fail (proved below), it is modelled over the
precomputed token list. -/

/-- Leading-comment loop of `parse_host_config`: accumulate
`token[1:] + " "` for each comment token; running out of tokens is the
`Expected host config, but got None` error. -/
def skipComments (acc : String) : List Tok → Except PyErr (String × List Tok)
  | [] => .error (.parseError "Expected host config, but got None")
  | t :: ts =>
    if t.kind = .comment then skipComments (acc ++ pySlice1 t.text ++ " ") ts
    else .ok (acc, t :: ts)

/-- Directive loop of `parse_host_config`: accumulate pending comments,
stop at `Host` or end of input, otherwise `parse_kv` + `add_config`. -/
def parseDirectives : SSHHostConfig → String → List Tok →
    Except PyErr (SSHHostConfig × List Tok)
  | cfg, _, [] => .ok (cfg, [])
  | cfg, comment, t :: ts =>
    if t.kind = .comment then
      parseDirectives cfg (comment ++ pySlice1 t.text ++ " ") ts
    else if t.kind = .host then
      .ok (cfg, t :: ts)
    else
      match ts with
      | [] => .error (.parseError "Expected value, but got None")
      | v :: ts2 =>
        if t.kind ≠ .item then .error (.parseError "Expected key")
        else if v.kind ≠ .item then .error (.parseError "Expected value")
        else do
          let cfg' ← cfg.addConfig t.text v.text comment
          parseDirectives cfg' "" ts2

/-- `parse_host_config`: leading comments, `Host` keyword, host name,
then the directive loop on a fresh `SSHHostConfig(host_name,
host_comment)`. -/
def parseHostConfig (toks : List Tok) : Except PyErr (SSHHostConfig × List Tok) := do
  let (hc, toks1) ← skipComments "" toks
  match toks1 with
  | [] => .error (.parseError "Expected host config, but got None")
  | t :: ts =>
    if t.kind ≠ .host then .error (.parseError "Expected host config")
    else
      match ts with
      | [] => .error (.parseError "Expected host name, but got None")
      | n :: ts2 =>
        if n.kind ≠ .item then .error (.parseError "Expected host name")
        else parseDirectives (SSHHostConfig.init (some n.text) (some hc)) "" ts2

/-- Top-level `parse` loop: skip exact sentinel comment tokens, parse one
host block otherwise.  The `Nat` fuel is the modelling artifact for the
loop; the wrapper passes the token count, which suffices because every
block consumes at least one token. -/
def parseTopAux : Nat → List Tok → Except PyErr (List SSHHostConfig)
  | _, [] => .ok []
  | 0, _ :: _ => .error (.parseError "recursion limit")
  | fuel + 1, t :: ts =>
    if t.kind = .comment && t.text = sentinel then
      parseTopAux fuel ts
    else do
      let (cfg, rest) ← parseHostConfig (t :: ts)
      let cfgs ← parseTopAux fuel rest
      .ok (cfg :: cfgs)

/-- `parse_ssh_config`: lex then parse. -/
def parse_ssh_config (s : String) : Except PyErr (List SSHHostConfig) := do
  let toks ← lexString s
  parseTopAux toks.length toks

end SshManager

deriving instance DecidableEq for Except

namespace SshManager

set_option maxRecDepth 10000

/-! ## Basic list facts used throughout -/

theorem dropWhile_le_length {p : Char → Bool} (l : List Char) :
    (l.dropWhile p).length ≤ l.length := by
  induction l with
  | nil => simp [List.dropWhile]
  | cons c cs ih =>
    by_cases h : p c
    · simp only [List.dropWhile, h]
      exact Nat.le_succ_of_le ih
    · simp only [List.dropWhile, h]
      simp

/-! ## C9: the lexer's no-match failure branch is unreachable -/

theorem lexAux_ok (fuel : Nat) :
    ∀ (prev : Option Char) (cs : List Char), cs.length ≤ fuel →
      ∃ toks, lexAux fuel prev cs = .ok toks := by
  induction fuel with
  | zero =>
    intro prev cs h
    have : cs = [] := List.length_eq_zero.mp (Nat.le_zero.mp h)
    subst this
    exact ⟨[], rfl⟩
  | succ fuel ih =>
    intro prev cs h
    match cs with
    | [] => exact ⟨[], rfl⟩
    | c :: cs =>
      have hcs : cs.length ≤ fuel := by simpa using h
      simp only [lexAux]
      by_cases hc : c = '#'
      · simp only [hc, if_true]
        have hlen : (cs.dropWhile (fun x => x ≠ '\n')).length ≤ fuel :=
          le_trans (dropWhile_le_length cs) hcs
        obtain ⟨toks, htoks⟩ := ih _ _ hlen
        rw [htoks]
        exact ⟨_, rfl⟩
      · simp only [hc, if_false]
        by_cases hh : hostMatch prev (c :: cs)
        · simp only [hh, if_true]
          have hlen : ((c :: cs).drop 4).length ≤ fuel := by
            simp only [List.length_drop, List.length_cons]
            omega
          obtain ⟨toks, htoks⟩ := ih _ _ hlen
          rw [htoks]
          exact ⟨_, rfl⟩
        · simp only [hh, if_false]
          by_cases hsp : pyIsSpace c
          · simp only [hsp, Bool.not_true, if_false, if_true]
            have hdw : (c :: cs).dropWhile pyIsSpace = cs.dropWhile pyIsSpace := by
              simp [List.dropWhile, hsp]
            have hlen : ((c :: cs).dropWhile pyIsSpace).length ≤ fuel := by
              rw [hdw]; exact le_trans (dropWhile_le_length cs) hcs
            obtain ⟨toks, htoks⟩ := ih _ _ hlen
            rw [htoks]
            exact ⟨_, rfl⟩
          · have hnsp : (!pyIsSpace c) = true := by simp [hsp]
            simp only [hnsp, if_true]
            have hdw : (c :: cs).dropWhile (fun x => !pyIsSpace x) =
                cs.dropWhile (fun x => !pyIsSpace x) := by
              simp [List.dropWhile, hsp]
            have hlen : ((c :: cs).dropWhile (fun x => !pyIsSpace x)).length ≤ fuel := by
              rw [hdw]; exact le_trans (dropWhile_le_length cs) hcs
            obtain ⟨toks, htoks⟩ := ih _ _ hlen
            rw [htoks]
            exact ⟨_, rfl⟩

/-- Claim C9: for every input string the tokenizer reaches end of input
without a lexical error: the `Item` class matches any non-whitespace run and the
`Whitespace` class any whitespace run, so at every position before end of
input some class matches and the `LexError` branch never fires. -/
theorem claim_c9_lexer_total (s : String) : ∃ toks, lexString s = .ok toks :=
  lexAux_ok s.data.length none s.data (le_refl _)

end SshManager

namespace SshManager

set_option maxRecDepth 40000

/-! ## C7: comment attachment and directive-comment binding -/

/-- Claim C7: `"# hi\nHost x\n\tHostName a\n"` parses to exactly one
entry with comment `"hi"` and endpoint hostname `"a"`, and
`"Host x\n\t# note\n\tFoo bar\n"` parses to exactly one entry whose
single extra directive is `Foo`/`bar` with comment `"note"`. -/
theorem claim_c7_comment_attachment :
    parse_ssh_config "# hi\nHost x\n\tHostName a\n" =
      .ok [⟨some "x", some "hi", ⟨some "a", none, some ""⟩, SSHAuthentication.empty, []⟩] ∧
    parse_ssh_config "Host x\n\t# note\n\tFoo bar\n" =
      .ok [⟨some "x", none, SSHEndpoint.empty, SSHAuthentication.empty,
            [⟨some "Foo", some "bar", some "note"⟩]⟩] := by
  constructor
  · decide
  · decide

/-! ## C5: sentinel elision -/

/-- Claim C5, counterexample: a sentinel comment line sitting at top
level between blocks but after another comment line is *not* elided — it
is concatenated into the entry's comment by the leading-comment loop, so
the claim's "every sentinel line at top level contributes to no entry's
comment" fails on this input. -/
theorem claim_c5_counterexample :
    parse_ssh_config "# a\n# This file is managed by ssh_manager\nHost x\n\tHostName b\n" =
      .ok [⟨some "x", some "a  This file is managed by ssh_manager",
            ⟨some "b", none, some ""⟩, SSHAuthentication.empty, []⟩] := by
  decide

/-- Claim C5, amended: the sentinel comment is elided exactly when it is
the token the top-level loop is looking at (a block boundary with no
preceding unconsumed comment): such a token is skipped and contributes
nothing.  In particular the claim's concrete text parses to one entry
whose comment does not contain the sentinel. -/
theorem claim_c5_amended :
    (∀ (fuel : Nat) (ts : List Tok),
        parseTopAux (fuel + 1) (⟨.comment, sentinel⟩ :: ts) = parseTopAux fuel ts) ∧
    parse_ssh_config "# This file is managed by ssh_manager\nHost x\n\tHostName a\n" =
      .ok [⟨some "x", none, ⟨some "a", none, some ""⟩, SSHAuthentication.empty, []⟩] := by
  constructor
  · intro fuel ts
    simp [parseTopAux]
  · decide

/-! ## C6: serialization failures -/

/-- Claim C6, counterexample: an entry whose name is the *empty string*
(as produced by `SSHHostConfig(" ")`, whose constructor strips the name
to `""`) renders successfully as `"Host \n"` — only an *absent* (`None`)
name raises, so "absent or empty fails" is refuted. -/
theorem claim_c6_counterexample :
    (SSHHostConfig.init (some " ") none).name = some "" ∧
    (SSHHostConfig.init (some " ") none).toDirString 0 = .ok "Host \n" := by
  constructor
  · decide
  · decide

/-- Claim C6, amended: rendering fails with the missing-name error
exactly when the entry's name is absent (`None`); an empty-string name
renders a `Host ` line.  An extra directive with absent key or absent
value fails with the corresponding missing-field error. -/
theorem claim_c6_amended :
    (∀ (cfg : SSHHostConfig) (i : Nat), cfg.name = none →
        cfg.toDirString i = .error .missingName) ∧
    (∀ (x : SSHExtraConfig) (i : Nat), x.key = none →
        x.toDirString i = .error .missingKey) ∧
    (∀ (x : SSHExtraConfig) (k : String) (i : Nat), x.key = some k → x.value = none →
        x.toDirString i = .error .missingValue) := by
  refine ⟨?_, ?_, ?_⟩
  · intro cfg i h
    simp [SSHHostConfig.toDirString, h]
  · intro x i h
    simp [SSHExtraConfig.toDirString, h]
  · intro x k i hk hv
    simp [SSHExtraConfig.toDirString, hk, hv]

/-- Witness for the amended C6 theorem at concrete entries. -/
theorem claim_c6_amended_witness :
    (SSHHostConfig.mk none none SSHEndpoint.empty SSHAuthentication.empty []).toDirString 0 =
        .error .missingName ∧
    (SSHExtraConfig.mk none (some "v") none).toDirString 0 = .error .missingKey ∧
    (SSHExtraConfig.mk (some "k") none none).toDirString 0 = .error .missingValue :=
  ⟨claim_c6_amended.1 _ 0 rfl, claim_c6_amended.2.1 _ 0 rfl,
   claim_c6_amended.2.2 _ "k" 0 rfl rfl⟩

/-! ## C10: non-integer `Port` values abort the parse -/

/-- Claim C10: a `Port` directive whose value is not a valid decimal
integer literal hits the unguarded `int(value)` in
`SSHEndpoint.add_config`, raising an error that is none of the spec's
kinds and aborting the whole parse, as the concrete input
`"Host x\n\tPort 5a\n"` shows. -/
theorem claim_c10_port_int_error :
    (∀ (e : SSHEndpoint) (v c : String), pyIntParse v = none →
        e.addConfig "Port" v c = .error (.intParseError v)) ∧
    parse_ssh_config "Host x\n\tPort 5a\n" = .error (.intParseError "5a") := by
  constructor
  · intro e v c h
    simp [SSHEndpoint.addConfig, h]
  · decide

/-- Witness for C10 at the concrete value `"5a"`. -/
theorem claim_c10_port_int_error_witness :
    SSHEndpoint.empty.addConfig "Port" "5a" "" = .error (.intParseError "5a") :=
  claim_c10_port_int_error.1 _ _ _ (by decide)

end SshManager

namespace SshManager

set_option maxRecDepth 40000

/-! ## C3: choice-resolution index validation -/

/-- Claim C3, counterexample: a negative index does *not* raise — the
range check only tests `index >= len`, and Python list indexing then
selects from the end, so `endpoint_index = -1` over a one-endpoint
descriptor resolves successfully to that endpoint. -/
theorem claim_c3_counterexample :
    resolveChoice "." ⟨some "box", none, some [⟨some "h", some 22, none⟩], none, none⟩ (-1) 0 =
      .ok ⟨some "box", none, ⟨some "h", some 22, none⟩, SSHAuthentication.empty, []⟩ := by
  decide

theorem pyListGet_some {α : Type} (l : List α) (i : Int) (h1 : -(l.length : Int) ≤ i)
    (h2 : i < (l.length : Int)) : ∃ e, pyListGet l i = some e := by
  unfold pyListGet
  by_cases h0 : 0 ≤ i
  · rw [if_pos h0]
    have hlt : i.toNat < l.length := by omega
    exact ⟨_, List.get?_eq_get hlt⟩
  · rw [if_neg h0, if_pos (show i.natAbs ≤ l.length from by omega)]
    have hlt : l.length - i.natAbs < l.length := by omega
    exact ⟨_, List.get?_eq_get hlt⟩

/-- A negative in-range Python index selects the same element as the
index shifted by the list length. -/
theorem pyListGet_shift {α : Type} (l : List α) (i : Int) (h1 : -(l.length : Int) ≤ i)
    (h2 : i < 0) : pyListGet l i = pyListGet l (i + (l.length : Int)) := by
  unfold pyListGet
  rw [if_neg (show ¬(0 ≤ i) from by omega),
    if_pos (show i.natAbs ≤ l.length from by omega),
    if_pos (show 0 ≤ i + (l.length : Int) from by omega)]
  congr 1
  omega

theorem pyListGet_below {α : Type} (l : List α) (i : Int)
    (h : i < -(l.length : Int)) : pyListGet l i = none := by
  unfold pyListGet
  rw [if_neg (show ¬(0 ≤ i) from by omega),
    if_neg (show ¬(i.natAbs ≤ l.length) from by omega)]

/-- Claim C3, amended: `resolve_choice` raises the out-of-range error —
identifying the kind (`endpoint_id`/`auth_id`) and the offending index,
though not the maximum — exactly for indices `>= len` of the selected
list (the `auth_id` check is reached whenever the endpoint step itself
does not raise); negative indices are not validated: an index in
`[-len, -1]` resolves from the end of the list, exactly as the index
shifted by the list length, and an index below `-len` raises a bare
`IndexError` instead. -/
theorem claim_c3_amended :
    (∀ (dir : String) (d : ServerDict) (eid aid : Int) (eps : List EndpointDict),
        d.Endpoint = some eps → (eps.length : Int) ≤ eid →
        resolveChoice dir d eid aid = .error (.endpointOutOfRange eid)) ∧
    (∀ (dir : String) (d : ServerDict) (eid aid : Int) (aus : List AuthDict),
        d.Authentication = some aus → (aus.length : Int) ≤ aid →
        (∀ eps, d.Endpoint = some eps →
          -(eps.length : Int) ≤ eid ∧ eid < (eps.length : Int)) →
        resolveChoice dir d eid aid = .error (.authOutOfRange aid)) ∧
    (∀ (dir : String) (d : ServerDict) (eid aid : Int) (eps : List EndpointDict),
        d.Endpoint = some eps → -(eps.length : Int) ≤ eid → eid < 0 →
        resolveChoice dir d eid aid =
          resolveChoice dir d (eid + (eps.length : Int)) aid) ∧
    (∀ (dir : String) (d : ServerDict) (eid aid : Int) (aus : List AuthDict),
        d.Authentication = some aus → -(aus.length : Int) ≤ aid → aid < 0 →
        resolveChoice dir d eid aid =
          resolveChoice dir d eid (aid + (aus.length : Int))) ∧
    (∀ (dir : String) (d : ServerDict) (eid aid : Int) (eps : List EndpointDict),
        d.Endpoint = some eps → eid < -(eps.length : Int) →
        resolveChoice dir d eid aid = .error .indexError) ∧
    (∀ (dir : String) (d : ServerDict) (eid aid : Int) (aus : List AuthDict),
        d.Authentication = some aus → aid < -(aus.length : Int) →
        (∀ eps, d.Endpoint = some eps →
          -(eps.length : Int) ≤ eid ∧ eid < (eps.length : Int)) →
        resolveChoice dir d eid aid = .error .indexError) := by
  refine ⟨?_, ?_, ?_, ?_, ?_, ?_⟩
  · intro dir d eid aid eps hep hge
    simp only [resolveChoice, hep, hge, ge_iff_le, if_true, if_pos]
    rfl
  · intro dir d eid aid aus hau hge heps
    match hep : d.Endpoint with
    | none =>
      simp only [resolveChoice, hep, hau, hge, ge_iff_le, if_true, if_pos]
      rfl
    | some eps =>
      obtain ⟨h1, h2⟩ := heps eps hep
      obtain ⟨e, he⟩ := pyListGet_some eps eid h1 h2
      simp only [resolveChoice, hep, hau, he, hge, ge_iff_le, if_true,
        not_le.mpr h2, if_false]
      rfl
  · intro dir d eid aid eps hep h1 h2
    simp only [resolveChoice, hep]
    rw [if_neg (show ¬(eid ≥ (eps.length : Int)) from by omega),
      if_neg (show ¬(eid + (eps.length : Int) ≥ (eps.length : Int)) from by omega),
      pyListGet_shift eps eid h1 h2]
  · intro dir d eid aid aus hau h1 h2
    simp only [resolveChoice, hau, ge_iff_le,
      not_le.mpr (show aid < (aus.length : Int) from by omega),
      not_le.mpr (show aid + (aus.length : Int) < (aus.length : Int) from by omega),
      if_false, pyListGet_shift aus aid h1 h2]
  · intro dir d eid aid eps hep h
    simp only [resolveChoice, hep, pyListGet_below eps eid h, ge_iff_le,
      not_le.mpr (show eid < (eps.length : Int) from by omega), if_false]
    rfl
  · intro dir d eid aid aus hau h heps
    match hep : d.Endpoint with
    | none =>
      simp only [resolveChoice, hep, hau, pyListGet_below aus aid h, ge_iff_le,
        not_le.mpr (show aid < (aus.length : Int) from by omega), if_false]
      rfl
    | some eps =>
      obtain ⟨h1, h2⟩ := heps eps hep
      obtain ⟨e, he⟩ := pyListGet_some eps eid h1 h2
      simp only [resolveChoice, hep, hau, he, pyListGet_below aus aid h, ge_iff_le,
        not_le.mpr h2, not_le.mpr (show aid < (aus.length : Int) from by omega),
        if_false]
      rfl

/-- Witness for the amended C3 theorem: over concrete descriptors,
`endpoint_index = 1` with one endpoint raises the endpoint out-of-range
error carrying index 1; `auth_index = 5` with one authentication raises
the auth out-of-range error; `endpoint_index = -1` over two endpoints
resolves to the second (the element counted from the end), and
`auth_index = -1` over one authentication resolves it; indices `-2`
below the respective `-len` raise the bare `IndexError`. -/
theorem claim_c3_amended_witness :
    (resolveChoice "." ⟨some "box", none, some [⟨some "h", some 22, none⟩], none, none⟩
        1 0 = .error (.endpointOutOfRange 1)) ∧
    (resolveChoice "." ⟨some "box", none, some [⟨some "h", some 22, none⟩],
        some [⟨some "u", none, none⟩], none⟩ 0 5 = .error (.authOutOfRange 5)) ∧
    (resolveChoice "." ⟨some "box", none,
        some [⟨some "h", some 22, none⟩, ⟨some "h2", none, none⟩], none, none⟩ (-1) 0 =
      .ok ⟨some "box", none, ⟨some "h2", none, none⟩, SSHAuthentication.empty, []⟩) ∧
    (resolveChoice "." ⟨some "box", none, some [⟨some "h", some 22, none⟩],
        some [⟨some "u", none, none⟩], none⟩ 0 (-1) =
      .ok ⟨some "box", none, ⟨some "h", some 22, none⟩,
        ⟨some "u", none, none, none⟩, []⟩) ∧
    (resolveChoice "." ⟨some "box", none, some [⟨some "h", some 22, none⟩], none, none⟩
        (-2) 0 = .error .indexError) ∧
    (resolveChoice "." ⟨some "box", none, some [⟨some "h", some 22, none⟩],
        some [⟨some "u", none, none⟩], none⟩ 0 (-2) = .error .indexError) :=
  ⟨claim_c3_amended.1 "." _ 1 0 [⟨some "h", some 22, none⟩] rfl (by decide),
   claim_c3_amended.2.1 "." _ 0 5 [⟨some "u", none, none⟩] rfl (by decide)
     (by intro eps heps; cases heps; decide),
   (claim_c3_amended.2.2.1 "." _ (-1) 0
     [⟨some "h", some 22, none⟩, ⟨some "h2", none, none⟩] rfl (by decide)
     (by decide)).trans (by decide),
   (claim_c3_amended.2.2.2.1 "." _ 0 (-1) [⟨some "u", none, none⟩] rfl (by decide)
     (by decide)).trans (by decide),
   claim_c3_amended.2.2.2.2.1 "." _ (-2) 0 [⟨some "h", some 22, none⟩] rfl (by decide),
   claim_c3_amended.2.2.2.2.2 "." _ 0 (-2) [⟨some "u", none, none⟩] rfl (by decide)
     (by intro eps heps; cases heps; decide)⟩

end SshManager

namespace SshManager

set_option maxRecDepth 40000

/-! ## C2: resolved identity-file path derivation -/

theorem mkAuthFromDict_identity (dir sn idf : String) (a : AuthDict)
    (h : a.IdentityFile = some idf) (h2 : pyStrip idf = idf) (h3 : idf ≠ "") :
    mkAuthFromDict dir (some sn) a =
      .ok ⟨strOrNone a.User, some idf, some (get_identifier_file_path dir sn idf),
           strOrNone a.Comment⟩ := by
  simp [mkAuthFromDict, h, strOrNone, h2, h3, truthy]

/-- Claim C2: for a descriptor with in-range endpoint and authentication
indices whose selected authentication carries a (clean, non-empty)
identity file, the resolved identity file is the normalized join of the
SSH base directory, the server name, and the final `/`-separated segment
of the identity file. -/
theorem claim_c2_path_derivation
    (dir : String) (d : ServerDict) (eid aid : Int) (sn idf : String)
    (eps : List EndpointDict) (aus : List AuthDict) (a : AuthDict)
    (hsn : d.ServerName = some sn) (hsn2 : pyStrip sn = sn) (hsn3 : sn ≠ "")
    (hep : d.Endpoint = some eps) (heid0 : 0 ≤ eid) (heid : eid < (eps.length : Int))
    (hau : d.Authentication = some aus) (haid : aid < (aus.length : Int))
    (ha : pyListGet aus aid = some a)
    (hidf : a.IdentityFile = some idf) (hidf2 : pyStrip idf = idf) (hidf3 : idf ≠ "") :
    (resolveChoice dir d eid aid).map (fun cfg => cfg.authentication.identity_file) =
      .ok (some (pyNormPath (pyPathJoin3 dir sn
        (String.mk ((splitSlash idf.data).getLast?.getD []))))) := by
  have hname : (match d.ServerName with
      | some s => strOrNone (some s)
      | none => none) = some sn := by
    rw [hsn]
    simp [strOrNone, hsn3, hsn2]
  have he : ∃ e, pyListGet eps eid = some e := by
    have : eid.toNat < eps.length := by omega
    simp only [pyListGet, heid0, if_true, if_pos]
    exact ⟨_, List.get?_eq_get this⟩
  obtain ⟨e, he⟩ := he
  simp only [resolveChoice, hep, hau, not_le.mpr heid, not_le.mpr haid, ge_iff_le,
    if_false, he, ha, hname,
    mkAuthFromDict_identity dir sn idf a hidf hidf2 hidf3]
  rfl

/-- Witness for C2: the claim's concrete instance — base directory
`/home/u/.ssh`, server `box`, identity file `keys/box_id_rsa` — resolves
to `/home/u/.ssh/box/box_id_rsa`. -/
theorem claim_c2_path_derivation_witness :
    (resolveChoice "/home/u/.ssh"
        ⟨some "box", none, some [⟨some "h", some 22, none⟩],
         some [⟨some "u", some "keys/box_id_rsa", none⟩], none⟩ 0 0).map
      (fun cfg => cfg.authentication.identity_file) =
      .ok (some (pyNormPath (pyPathJoin3 "/home/u/.ssh" "box"
        (String.mk ((splitSlash ("keys/box_id_rsa" : String).data).getLast?.getD []))))) ∧
    pyNormPath (pyPathJoin3 "/home/u/.ssh" "box"
      (String.mk ((splitSlash ("keys/box_id_rsa" : String).data).getLast?.getD []))) =
      "/home/u/.ssh/box/box_id_rsa" := by
  constructor
  · exact claim_c2_path_derivation "/home/u/.ssh" _ 0 0 "box" "keys/box_id_rsa"
      [⟨some "h", some 22, none⟩] [⟨some "u", some "keys/box_id_rsa", none⟩]
      ⟨some "u", some "keys/box_id_rsa", none⟩
      rfl (by decide) (by decide) rfl (by decide) (by decide) rfl (by decide)
      rfl rfl (by decide) (by decide)
  · decide

end SshManager

namespace SshManager

set_option maxRecDepth 40000

/-! ## Monadic and string plumbing lemmas -/

@[simp] theorem except_ok_bind {ε α β : Type} (a : α) (f : α → Except ε β) :
    (Except.ok a : Except ε α) >>= f = f a := rfl

@[simp] theorem except_error_bind {ε α β : Type} (e : ε) (f : α → Except ε β) :
    (Except.error e : Except ε α) >>= f = (Except.error e : Except ε β) := rfl

@[simp] theorem except_pure_eq {ε α : Type} (a : α) :
    (pure a : Except ε α) = Except.ok a := rfl

theorem list_strong_ind {α : Type} {C : List α → Prop}
    (h : ∀ l, (∀ l', l'.length < l.length → C l') → C l) : ∀ l, C l := by
  have key : ∀ (n : Nat) (l : List α), l.length ≤ n → C l := by
    intro n
    induction n with
    | zero =>
      intro l hl
      exact h l (fun l' hl' => absurd hl' (by omega))
    | succ n ih =>
      intro l hl
      exact h l (fun l' hl' => ih l' (by omega))
  intro l
  exact key l.length l (le_refl _)

theorem pyStripData_append_space (l : List Char) :
    pyStripData (l ++ [' ']) = pyStripData l := by
  unfold pyStripData
  rw [List.dropWhile_append]
  by_cases h : (l.dropWhile pyIsSpace).isEmpty
  · have h2 : l.dropWhile pyIsSpace = [] := by simpa [List.isEmpty_iff] using h
    simp [h, h2, List.dropWhile, pyIsSpace]
  · simp only [h, if_false, Bool.false_eq_true]
    rw [List.reverse_append]
    simp [List.dropWhile, pyIsSpace]

theorem pyStrip_append_space (s : String) : pyStrip (s ++ " ") = pyStrip s := by
  simp only [pyStrip, String.data_append]
  rw [pyStripData_append_space]

/-! ## Characterization of `SSHHostConfig.add_config` by key -/

theorem addConfig_hostname (cfg : SSHHostConfig) (v c : String) :
    cfg.addConfig "HostName" v c =
      .ok ⟨cfg.name, cfg.comment,
           ⟨some v, cfg.endpoint.port, addComment cfg.endpoint.comment c⟩,
           cfg.authentication, cfg.extra_config⟩ := rfl

theorem addConfig_port (cfg : SSHHostConfig) (v c : String) (p : Int)
    (h : pyIntParse v = some p) :
    cfg.addConfig "Port" v c =
      .ok ⟨cfg.name, cfg.comment,
           ⟨cfg.endpoint.hostname, some p, addComment cfg.endpoint.comment c⟩,
           cfg.authentication, cfg.extra_config⟩ := by
  simp [SSHHostConfig.addConfig, SSHEndpoint.addConfig, h]

theorem addConfig_port_bad (cfg : SSHHostConfig) (v c : String)
    (h : pyIntParse v = none) :
    cfg.addConfig "Port" v c = .error (.intParseError v) := by
  simp [SSHHostConfig.addConfig, SSHEndpoint.addConfig, h]

theorem addConfig_user (cfg : SSHHostConfig) (v c : String) :
    cfg.addConfig "User" v c =
      .ok ⟨cfg.name, cfg.comment, cfg.endpoint,
           ⟨some v, cfg.authentication.original_identity_file,
            cfg.authentication.identity_file, addComment cfg.authentication.comment c⟩,
           cfg.extra_config⟩ := rfl

theorem addConfig_identity (cfg : SSHHostConfig) (v c : String) :
    cfg.addConfig "IdentityFile" v c =
      .ok ⟨cfg.name, cfg.comment, cfg.endpoint,
           ⟨cfg.authentication.user, none, some v,
            addComment cfg.authentication.comment c⟩,
           cfg.extra_config⟩ := rfl

theorem addConfig_other (cfg : SSHHostConfig) (k v c : String)
    (h1 : k ≠ "HostName") (h2 : k ≠ "Port") (h3 : k ≠ "User") (h4 : k ≠ "IdentityFile") :
    cfg.addConfig k v c =
      .ok ⟨cfg.name, cfg.comment, cfg.endpoint, cfg.authentication,
           cfg.extra_config ++ [SSHExtraConfig.init (some k) (some v) (some c)]⟩ := by
  simp [SSHHostConfig.addConfig, SSHEndpoint.addConfig, SSHAuthentication.addConfig,
    h1, h2, h3, h4]

/-- Every successful `add_config` leaves the host name and host comment
untouched. -/
theorem addConfig_name_comment (cfg cfg' : SSHHostConfig) (k v c : String)
    (h : cfg.addConfig k v c = .ok cfg') :
    cfg'.comment = cfg.comment ∧ cfg'.name = cfg.name := by
  by_cases h1 : k = "HostName"
  · subst h1; rw [addConfig_hostname] at h
    cases h; exact ⟨rfl, rfl⟩
  by_cases h2 : k = "Port"
  · subst h2
    cases hp : pyIntParse v with
    | some p =>
      rw [addConfig_port cfg v c p hp] at h
      cases h; exact ⟨rfl, rfl⟩
    | none =>
      rw [addConfig_port_bad cfg v c hp] at h
      cases h
  by_cases h3 : k = "User"
  · subst h3; rw [addConfig_user] at h
    cases h; exact ⟨rfl, rfl⟩
  by_cases h4 : k = "IdentityFile"
  · subst h4; rw [addConfig_identity] at h
    cases h; exact ⟨rfl, rfl⟩
  rw [addConfig_other cfg k v c h1 h2 h3 h4] at h
  cases h; exact ⟨rfl, rfl⟩

/-! ## C8: concatenation of leading comment lines -/

theorem pySlice1_hash (b : String) : pySlice1 ("#" ++ b) = b := rfl

theorem skipComments_comments (bodies : List String) :
    ∀ (acc : String) (t : Tok) (ts : List Tok), t.kind ≠ .comment →
      skipComments acc ((bodies.map fun b => Tok.mk .comment ("#" ++ b)) ++ t :: ts) =
        .ok (bodies.foldl (fun a b => a ++ b ++ " ") acc, t :: ts) := by
  induction bodies with
  | nil =>
    intro acc t ts h
    simp [skipComments, h]
  | cons b bodies ih =>
    intro acc t ts h
    simp only [List.map_cons, List.cons_append, skipComments, if_pos, pySlice1_hash,
      List.foldl_cons]
    exact ih (acc ++ b ++ " ") t ts h

theorem parseDirectives_host_fields :
    ∀ (ts : List Tok) (cfg cfg' : SSHHostConfig) (c : String) (rest : List Tok),
      parseDirectives cfg c ts = .ok (cfg', rest) →
      cfg'.comment = cfg.comment ∧ cfg'.name = cfg.name := by
  refine list_strong_ind ?_
  intro ts ih cfg cfg' c rest h
  match ts with
  | [] =>
    rw [parseDirectives.eq_1] at h
    cases h
    exact ⟨rfl, rfl⟩
  | [t] =>
    rw [parseDirectives.eq_2] at h
    by_cases hc : t.kind = .comment
    · rw [if_pos hc] at h
      exact ih [] (by simp) _ _ _ _ h
    · by_cases hh : t.kind = .host
      · rw [if_neg hc, if_pos hh] at h
        cases h
        exact ⟨rfl, rfl⟩
      · rw [if_neg hc, if_neg hh] at h
        cases h
  | t :: v :: ts2 =>
    rw [parseDirectives.eq_3] at h
    by_cases hc : t.kind = .comment
    · rw [if_pos hc] at h
      exact ih (v :: ts2) (by simp) _ _ _ _ h
    · by_cases hh : t.kind = .host
      · rw [if_neg hc, if_pos hh] at h
        cases h
        exact ⟨rfl, rfl⟩
      · by_cases ht : t.kind = .item
        · by_cases hv : v.kind = .item
          · rw [if_neg hc, if_neg hh, if_neg (by simpa using ht), if_neg (by simpa using hv)] at h
            cases hac : cfg.addConfig t.text v.text c with
            | ok cfgm =>
              rw [hac, except_ok_bind] at h
              obtain ⟨e1, e2⟩ := ih ts2 (by simp only [List.length_cons]; omega) cfgm cfg' "" rest h
              obtain ⟨f1, f2⟩ := addConfig_name_comment cfg cfgm t.text v.text c hac
              exact ⟨e1.trans f1, e2.trans f2⟩
            | error e =>
              rw [hac, except_error_bind] at h
              cases h
          · rw [if_neg hc, if_neg hh, if_neg (by simpa using ht), if_pos (by simpa using hv)] at h
            cases h
        · rw [if_neg hc, if_neg hh, if_pos (by simpa using ht)] at h
          cases h

end SshManager

namespace SshManager

set_option maxRecDepth 40000

theorem foldl_append_acc (bodies : List String) :
    ∀ (a b : String),
      bodies.foldl (fun x y => x ++ y ++ " ") (a ++ b) =
        a ++ bodies.foldl (fun x y => x ++ y ++ " ") b := by
  induction bodies with
  | nil => intro a b; rfl
  | cons x xs ih =>
    intro a b
    simp only [List.foldl_cons]
    rw [show (a ++ b) ++ x ++ " " = a ++ (b ++ x ++ " ") by
      simp [String.append_assoc]]
    exact ih a (b ++ x ++ " ")

theorem foldl_comment_join (bodies : List String) (hne : bodies ≠ []) :
    bodies.foldl (fun x y => x ++ y ++ " ") "" = pyJoin " " bodies ++ " " := by
  induction bodies with
  | nil => exact absurd rfl hne
  | cons b bodies ih =>
    match bodies with
    | [] => simp [pyJoin]
    | c :: tl =>
      rw [List.foldl_cons]
      rw [show ("" ++ b ++ " ") = (b ++ " ") ++ "" by simp]
      rw [foldl_append_acc]
      rw [ih (by simp)]
      show (b ++ " ") ++ (pyJoin " " (c :: tl) ++ " ") = pyJoin " " (b :: c :: tl) ++ " "
      rw [pyJoin]
      simp [String.append_assoc]

/-- Claim C8, counterexample: for comment lines `# a` and `# b` the
texts with their leading `#` stripped are `" a"` and `" b"`; their
single-space concatenation is `" a  b"`, but the entry's comment is
`"a  b"` — the constructor strips the outer whitespace, so the claim's
exact concatenation equality fails. -/
theorem claim_c8_counterexample :
    parse_ssh_config "# a\n# b\nHost x\n" =
      .ok [⟨some "x", some "a  b", SSHEndpoint.empty, SSHAuthentication.empty, []⟩] ∧
    ("a  b" : String) ≠ pyJoin " " [" a", " b"] := by
  constructor
  · decide
  · decide

/-- Claim C8, amended: for a host block preceded by two or more comment
lines, the entry's comment is the single-space-separated concatenation
of the comment texts (each with its leading `#` stripped), with leading
and trailing whitespace then removed by the `SSHHostConfig`
constructor's strip. -/
theorem claim_c8_amended (bodies : List String) (nm : String) (rest rest' : List Tok)
    (cfg : SSHHostConfig) (hlen : 2 ≤ bodies.length)
    (h : parseHostConfig ((bodies.map fun b => Tok.mk .comment ("#" ++ b)) ++
          Tok.mk .host "Host" :: Tok.mk .item nm :: rest) = .ok (cfg, rest')) :
    cfg.comment = some (pyStrip (pyJoin " " bodies)) := by
  have hne : bodies ≠ [] := by
    intro hcon
    rw [hcon] at hlen
    simp at hlen
  rw [parseHostConfig] at h
  rw [skipComments_comments bodies "" (Tok.mk .host "Host") (Tok.mk .item nm :: rest)
      (by decide)] at h
  rw [except_ok_bind] at h
  simp only [ne_eq, not_true_eq_false, if_false, reduceCtorEq, ite_false] at h
  have hcomment := (parseDirectives_host_fields rest
    (SSHHostConfig.init (some nm)
      (some (bodies.foldl (fun x y => x ++ y ++ " ") ""))) cfg "" rest' h).1
  rw [hcomment]
  rw [foldl_comment_join bodies hne]
  show strOrNone (some (pyJoin " " bodies ++ " ")) = some (pyStrip (pyJoin " " bodies))
  rw [strOrNone]
  rw [if_neg (by
    intro hcon
    have : (pyJoin " " bodies ++ " ").data = ("" : String).data := by rw [hcon]
    rw [String.data_append] at this
    simp at this)]
  rw [pyStrip_append_space]

/-- Witness for the amended C8 theorem at the comment lines `# a`,
`# b`. -/
theorem claim_c8_amended_witness :
    (SSHHostConfig.mk (some "x") (some "a  b") SSHEndpoint.empty
        SSHAuthentication.empty []).comment =
      some (pyStrip (pyJoin " " [" a", " b"])) :=
  claim_c8_amended [" a", " b"] "x" [] []
    ⟨some "x", some "a  b", SSHEndpoint.empty, SSHAuthentication.empty, []⟩
    (by decide) (by decide)

end SshManager

namespace SshManager

set_option maxRecDepth 40000

/-! ## C4: dispatch order and the parsed-path authentication invariant -/

/-- A string whose characters are all non-whitespace strips to itself. -/
theorem pyStrip_no_space (s : String) (h : ∀ ch ∈ s.data, pyIsSpace ch = false) :
    pyStrip s = s := by
  have h1 : s.data.dropWhile pyIsSpace = s.data := by
    match hs : s.data with
    | [] => rfl
    | c :: cs =>
      exact List.dropWhile_cons_of_neg (by simp [h c (by rw [hs]; simp)])
  have h2 : s.data.reverse.dropWhile pyIsSpace = s.data.reverse := by
    match hs : s.data.reverse with
    | [] => rfl
    | c :: cs =>
      have hc : c ∈ s.data := by
        rw [← List.mem_reverse, hs]
        simp
      exact List.dropWhile_cons_of_neg (by simp [h c hc])
  show String.mk (((s.data.dropWhile pyIsSpace).reverse.dropWhile pyIsSpace).reverse) = s
  rw [h1, h2]
  simp

/-- The cleanliness property every `Item` token text enjoys. -/
def itemClean (t : Tok) : Prop :=
  t.kind = .item → t.text.data ≠ [] ∧ ∀ ch ∈ t.text.data, pyIsSpace ch = false

/-- Every token the lexer yields has a non-empty, whitespace-free text
when its kind is `Item` (an `Item` lexeme is a maximal `\S+` run). -/
theorem lexAux_item_clean (fuel : Nat) :
    ∀ (prev : Option Char) (cs : List Char) (toks : List Tok),
      lexAux fuel prev cs = .ok toks → ∀ t ∈ toks, itemClean t := by
  induction fuel with
  | zero =>
    intro prev cs toks h t ht
    match cs with
    | [] =>
      cases h
      simp at ht
    | c :: cs => simp [lexAux] at h
  | succ fuel ih =>
    intro prev cs toks h t ht
    match cs with
    | [] =>
      cases h
      simp at ht
    | c :: cs =>
      simp only [lexAux] at h
      by_cases hc : c = '#'
      · rw [if_pos hc] at h
        cases hrec : lexAux fuel ('#' :: cs.takeWhile (fun x => x ≠ '\n')).getLast?
            (cs.dropWhile (fun x => x ≠ '\n')) with
        | error e =>
          rw [hc] at h
          rw [hrec] at h
          simp [Except.map] at h
        | ok toks' =>
          rw [hc] at h
          rw [hrec] at h
          simp only [Except.map, Except.ok.injEq] at h
          rw [← h] at ht
          rcases List.mem_cons.mp ht with h1 | h1
          · intro hk
            rw [h1] at hk
            simp at hk
          · exact ih _ _ _ hrec t h1
      · rw [if_neg hc] at h
        by_cases hh : hostMatch prev (c :: cs)
        · rw [if_pos hh] at h
          cases hrec : lexAux fuel (some 't') ((c :: cs).drop 4) with
          | error e =>
            rw [hrec] at h
            simp [Except.map] at h
          | ok toks' =>
            rw [hrec] at h
            simp only [Except.map, Except.ok.injEq] at h
            rw [← h] at ht
            rcases List.mem_cons.mp ht with h1 | h1
            · intro hk
              rw [h1] at hk
              simp at hk
            · exact ih _ _ _ hrec t h1
        · rw [if_neg hh] at h
          by_cases hsp : pyIsSpace c
          · rw [if_neg (by simp [hsp]), if_pos hsp] at h
            exact ih _ _ _ h t ht
          · rw [if_pos (by simp [hsp])] at h
            cases hrec : lexAux fuel ((c :: cs).takeWhile (fun x => !pyIsSpace x)).getLast?
                ((c :: cs).dropWhile (fun x => !pyIsSpace x)) with
            | error e =>
              rw [hrec] at h
              simp [Except.map] at h
            | ok toks' =>
              rw [hrec] at h
              simp only [Except.map, Except.ok.injEq] at h
              rw [← h] at ht
              rcases List.mem_cons.mp ht with h1 | h1
              · intro hk
                rw [h1]
                refine ⟨?_, ?_⟩
                · rw [List.takeWhile_cons_of_pos (by simp [hsp])]
                  simp
                · intro ch hch
                  have := List.mem_takeWhile_imp hch
                  simpa using this
              · exact ih _ _ _ hrec t h1

/-- The key of an extra directive produced by parsing is never one of
the four recognized keys. -/
def extraKeyOk (x : SSHExtraConfig) : Prop :=
  x.key ≠ some "HostName" ∧ x.key ≠ some "Port" ∧
  x.key ≠ some "User" ∧ x.key ≠ some "IdentityFile"

/-- The parse-path invariant on one entry. -/
def parsedEntryOk (cfg : SSHHostConfig) : Prop :=
  (∀ x ∈ cfg.extra_config, extraKeyOk x) ∧
  cfg.authentication.original_identity_file = none

theorem parseDirectives_entry_inv :
    ∀ (ts : List Tok) (cfg cfg' : SSHHostConfig) (c : String) (rest : List Tok),
      parseDirectives cfg c ts = .ok (cfg', rest) →
      (∀ t ∈ ts, itemClean t) →
      parsedEntryOk cfg → parsedEntryOk cfg' := by
  refine list_strong_ind ?_
  intro ts ih cfg cfg' c rest h hclean hok
  match ts with
  | [] =>
    rw [parseDirectives.eq_1] at h
    cases h
    exact hok
  | [t] =>
    rw [parseDirectives.eq_2] at h
    by_cases hc : t.kind = .comment
    · rw [if_pos hc] at h
      exact ih [] (by simp) _ _ _ _ h (by simp) hok
    · by_cases hh : t.kind = .host
      · rw [if_neg hc, if_pos hh] at h
        cases h
        exact hok
      · rw [if_neg hc, if_neg hh] at h
        cases h
  | t :: v :: ts2 =>
    rw [parseDirectives.eq_3] at h
    by_cases hc : t.kind = .comment
    · rw [if_pos hc] at h
      refine ih (v :: ts2) (by simp) _ _ _ _ h ?_ hok
      intro u hu
      exact hclean u (by simp [hu])
    · by_cases hh : t.kind = .host
      · rw [if_neg hc, if_pos hh] at h
        cases h
        exact hok
      · by_cases ht : t.kind = .item
        · by_cases hv : v.kind = .item
          · rw [if_neg hc, if_neg hh, if_neg (by simpa using ht),
              if_neg (by simpa using hv)] at h
            have hclean2 : ∀ u ∈ ts2, itemClean u := by
              intro u hu
              exact hclean u (by simp [hu])
            obtain ⟨htne, htns⟩ := hclean t (by simp) ht
            cases hac : cfg.addConfig t.text v.text c with
            | error e =>
              rw [hac, except_error_bind] at h
              cases h
            | ok cfgm =>
              rw [hac, except_ok_bind] at h
              refine ih ts2 (by simp only [List.length_cons]; omega) _ _ _ _ h hclean2 ?_
              by_cases h1 : t.text = "HostName"
              · rw [h1, addConfig_hostname] at hac
                cases hac
                exact hok
              by_cases h2 : t.text = "Port"
              · rw [h2] at hac
                cases hp : pyIntParse v.text with
                | some p =>
                  rw [addConfig_port cfg v.text c p hp] at hac
                  cases hac
                  exact hok
                | none =>
                  rw [addConfig_port_bad cfg v.text c hp] at hac
                  cases hac
              by_cases h3 : t.text = "User"
              · rw [h3, addConfig_user] at hac
                cases hac
                exact hok
              by_cases h4 : t.text = "IdentityFile"
              · rw [h4, addConfig_identity] at hac
                cases hac
                exact ⟨hok.1, rfl⟩
              rw [addConfig_other cfg t.text v.text c h1 h2 h3 h4] at hac
              cases hac
              refine ⟨?_, hok.2⟩
              intro x hx
              rcases List.mem_append.mp hx with hx1 | hx1
              · exact hok.1 x hx1
              · have hx2 : x = SSHExtraConfig.init (some t.text) (some v.text) (some c) := by
                  simpa using hx1
                rw [hx2]
                have hstrip : pyStrip t.text = t.text :=
                  pyStrip_no_space t.text htns
                have hkey : (SSHExtraConfig.init (some t.text) (some v.text) (some c)).key =
                    some t.text := by
                  show strOrNone (some t.text) = some t.text
                  rw [strOrNone]
                  rw [if_neg (by
                    intro hcon
                    exact htne (congrArg String.data hcon))]
                  rw [hstrip]
                refine ⟨?_, ?_, ?_, ?_⟩ <;>
                  · rw [hkey]
                    intro hcon
                    simp only [Option.some.injEq] at hcon
                    first
                    | exact h1 hcon
                    | exact h2 hcon
                    | exact h3 hcon
                    | exact h4 hcon
          · rw [if_neg hc, if_neg hh, if_neg (by simpa using ht),
              if_pos (by simpa using hv)] at h
            cases h
        · rw [if_neg hc, if_neg hh, if_pos (by simpa using ht)] at h
          cases h

end SshManager

namespace SshManager

set_option maxRecDepth 40000

theorem skipComments_mem :
    ∀ (ts : List Tok) (acc a : String) (r : List Tok),
      skipComments acc ts = .ok (a, r) → ∀ t ∈ r, t ∈ ts := by
  intro ts
  induction ts with
  | nil =>
    intro acc a r h
    simp [skipComments] at h
  | cons t ts ih =>
    intro acc a r h u hu
    by_cases hc : t.kind = .comment
    · rw [skipComments, if_pos hc] at h
      exact List.mem_cons_of_mem t (ih _ _ _ h u hu)
    · rw [skipComments, if_neg hc] at h
      cases h
      exact hu

theorem parseDirectives_mem :
    ∀ (ts : List Tok) (cfg cfg' : SSHHostConfig) (c : String) (rest : List Tok),
      parseDirectives cfg c ts = .ok (cfg', rest) → ∀ t ∈ rest, t ∈ ts := by
  refine list_strong_ind ?_
  intro ts ih cfg cfg' c rest h u hu
  match ts with
  | [] =>
    rw [parseDirectives.eq_1] at h
    cases h
    simp at hu
  | [t] =>
    rw [parseDirectives.eq_2] at h
    by_cases hc : t.kind = .comment
    · rw [if_pos hc] at h
      have := ih [] (by simp) _ _ _ _ h u hu
      simp at this
    · by_cases hh : t.kind = .host
      · rw [if_neg hc, if_pos hh] at h
        cases h
        exact hu
      · rw [if_neg hc, if_neg hh] at h
        cases h
  | t :: v :: ts2 =>
    rw [parseDirectives.eq_3] at h
    by_cases hc : t.kind = .comment
    · rw [if_pos hc] at h
      exact List.mem_cons_of_mem t (ih (v :: ts2) (by simp) _ _ _ _ h u hu)
    · by_cases hh : t.kind = .host
      · rw [if_neg hc, if_pos hh] at h
        cases h
        exact hu
      · by_cases ht : t.kind = .item
        · by_cases hv : v.kind = .item
          · rw [if_neg hc, if_neg hh, if_neg (by simpa using ht),
              if_neg (by simpa using hv)] at h
            cases hac : cfg.addConfig t.text v.text c with
            | error e =>
              rw [hac, except_error_bind] at h
              cases h
            | ok cfgm =>
              rw [hac, except_ok_bind] at h
              have := ih ts2 (by simp only [List.length_cons]; omega) _ _ _ _ h u hu
              exact List.mem_cons_of_mem t (List.mem_cons_of_mem v this)
          · rw [if_neg hc, if_neg hh, if_neg (by simpa using ht),
              if_pos (by simpa using hv)] at h
            cases h
        · rw [if_neg hc, if_neg hh, if_pos (by simpa using ht)] at h
          cases h

theorem parseHostConfig_inv (toks : List Tok) (cfg : SSHHostConfig) (rest : List Tok)
    (h : parseHostConfig toks = .ok (cfg, rest))
    (hclean : ∀ t ∈ toks, itemClean t) :
    parsedEntryOk cfg ∧ ∀ t ∈ rest, t ∈ toks := by
  rw [parseHostConfig] at h
  cases hsk : skipComments "" toks with
  | error e =>
    rw [hsk, except_error_bind] at h
    cases h
  | ok pr =>
    obtain ⟨hc, toks1⟩ := pr
    rw [hsk, except_ok_bind] at h
    dsimp only at h
    have hmem1 : ∀ t ∈ toks1, t ∈ toks := skipComments_mem toks "" hc toks1 hsk
    match toks1 with
    | [] => cases h
    | [t] =>
      by_cases hkind : t.kind = .host
      · simp [hkind] at h
      · simp [hkind] at h
    | t :: n :: ts2 =>
      by_cases hkind : t.kind = .host
      · by_cases hn : n.kind = .item
        · simp only [hkind, hn, ne_eq, not_true_eq_false, if_false, ite_false,
            reduceCtorEq] at h
          have hclean2 : ∀ u ∈ ts2, itemClean u := by
            intro u hu
            exact hclean u (hmem1 u (by simp [hu]))
          refine ⟨parseDirectives_entry_inv ts2 _ cfg "" rest h hclean2
            ⟨fun x hx => absurd hx (by simp [SSHHostConfig.init]), rfl⟩, ?_⟩
          intro u hu
          exact hmem1 u (by simp [parseDirectives_mem ts2 _ _ _ _ h u hu])
        · simp [hkind, hn] at h
      · simp [hkind] at h

theorem parseTopAux_inv (fuel : Nat) :
    ∀ (toks : List Tok) (cfgs : List SSHHostConfig),
      parseTopAux fuel toks = .ok cfgs →
      (∀ t ∈ toks, itemClean t) →
      ∀ cfg ∈ cfgs, parsedEntryOk cfg := by
  induction fuel with
  | zero =>
    intro toks cfgs h hclean cfg hcfg
    match toks with
    | [] =>
      cases h
      simp at hcfg
    | t :: ts => cases h
  | succ fuel ih =>
    intro toks cfgs h hclean cfg hcfg
    match toks with
    | [] =>
      cases h
      simp at hcfg
    | t :: ts =>
      rw [parseTopAux] at h
      by_cases hs : t.kind = .comment ∧ t.text = sentinel
      · rw [if_pos (by simp [hs.1, hs.2])] at h
        exact ih ts cfgs h (fun u hu => hclean u (by simp [hu])) cfg hcfg
      · rw [if_neg (by
          intro hcon
          simp only [Bool.and_eq_true, decide_eq_true_eq] at hcon
          exact hs hcon)] at h
        cases hpc : parseHostConfig (t :: ts) with
        | error e =>
          rw [hpc, except_error_bind] at h
          cases h
        | ok pr =>
          obtain ⟨cfg0, rest⟩ := pr
          rw [hpc, except_ok_bind] at h
          dsimp only at h
          cases hrec : parseTopAux fuel rest with
          | error e =>
            rw [hrec, except_error_bind] at h
            cases h
          | ok cfgs' =>
            rw [hrec, except_ok_bind] at h
            cases h
            obtain ⟨hinv, hmem⟩ := parseHostConfig_inv (t :: ts) cfg0 rest hpc hclean
            rcases List.mem_cons.mp hcfg with h1 | h1
            · rw [h1]
              exact hinv
            · exact ih rest cfgs' hrec (fun u hu => hclean u (hmem u hu)) cfg h1

theorem ite_mk_ne_empty (x : List Char) :
    (if x = [] then ("." : String) else String.mk x) ≠ "" := by
  by_cases hx : x = []
  · rw [if_pos hx]
    decide
  · rw [if_neg hx]
    intro hcon
    exact hx (congrArg String.data hcon)

theorem pyNormPath_ne_empty (p : String) : pyNormPath p ≠ "" := by
  rw [pyNormPath]
  by_cases hp : p = ""
  · simp [hp]
  · rw [if_neg hp]
    exact ite_mk_ne_empty _

/-- Claim C4: (1) for every successfully parsed text, no entry's extra
list carries one of the recognized keys `HostName`/`Port`/`User`/
`IdentityFile`, and every entry's `original_identity_file` is absent —
the dispatch order endpoint → authentication → extra intercepts the
recognized keys; (2) the `IdentityFile` handler stores the literal value
verbatim as the resolved path and clears `original_identity_file`;
(3) on the descriptor-construction path `resolved_identity_file` is
present (truthy) iff `original_identity_file` is. -/
theorem claim_c4_dispatch_invariants :
    (∀ (s : String) (cfgs : List SSHHostConfig), parse_ssh_config s = .ok cfgs →
        ∀ cfg ∈ cfgs, (∀ x ∈ cfg.extra_config, extraKeyOk x) ∧
          cfg.authentication.original_identity_file = none) ∧
    (∀ (a : SSHAuthentication) (v c : String),
        a.addConfig "IdentityFile" v c =
          (true, ⟨a.user, none, some v, addComment a.comment c⟩)) ∧
    (∀ (dir sn : String) (d : AuthDict) (a : SSHAuthentication),
        mkAuthFromDict dir (some sn) d = .ok a →
        truthy a.identity_file = truthy a.original_identity_file) := by
  refine ⟨?_, ?_, ?_⟩
  · intro s cfgs h cfg hcfg
    rw [parse_ssh_config] at h
    cases hlex : lexString s with
    | error e =>
      rw [hlex, except_error_bind] at h
      cases h
    | ok toks =>
      rw [hlex, except_ok_bind] at h
      exact parseTopAux_inv toks.length toks cfgs h
        (lexAux_item_clean s.data.length none s.data toks hlex) cfg hcfg
  · intro a v c
    rfl
  · intro dir sn d a h
    rw [mkAuthFromDict] at h
    by_cases ho : truthy (strOrNone d.IdentityFile)
    · rw [if_pos ho] at h
      simp only [except_pure_eq, except_ok_bind, Except.ok.injEq] at h
      rw [← h]
      show truthy (some (get_identifier_file_path dir sn ((strOrNone d.IdentityFile).getD ""))) =
        truthy (strOrNone d.IdentityFile)
      rw [ho]
      show decide (get_identifier_file_path dir sn ((strOrNone d.IdentityFile).getD "") ≠ "") = true
      simp only [decide_eq_true_eq, ne_eq]
      exact pyNormPath_ne_empty _
    · rw [if_neg ho] at h
      simp only [except_pure_eq, except_ok_bind, Except.ok.injEq] at h
      rw [← h]
      show truthy none = truthy (strOrNone d.IdentityFile)
      rw [show truthy (strOrNone d.IdentityFile) = false by simpa using ho]
      rfl

/-- Witness for C4 at the parse of `"Host x\n\tFoo bar\n\tIdentityFile f\n"`. -/
theorem claim_c4_dispatch_invariants_witness :
    (∀ x ∈ ([⟨some "Foo", some "bar", none⟩] : List SSHExtraConfig), extraKeyOk x) ∧
    (SSHAuthentication.mk none none (some "f") (some "")).original_identity_file = none :=
  claim_c4_dispatch_invariants.1 "Host x\n\tFoo bar\n\tIdentityFile f\n"
    [⟨some "x", none, SSHEndpoint.empty,
      ⟨none, none, some "f", some ""⟩, [⟨some "Foo", some "bar", none⟩]⟩]
    (by decide)
    ⟨some "x", none, SSHEndpoint.empty,
      ⟨none, none, some "f", some ""⟩, [⟨some "Foo", some "bar", none⟩]⟩
    (by simp)

end SshManager

namespace SshManager

set_option maxRecDepth 40000

/-! ## Decimal digits round-trip: `int(str(p)) = p` -/

/-- Value of a digit list, most significant first. -/
def digitsVal (ds : List Char) : Nat :=
  ds.foldl (fun a c => a * 10 + (c.toNat - 48)) 0

theorem digitsVal_acc (ds : List Char) :
    ∀ (a : Nat), ds.foldl (fun x c => x * 10 + (c.toNat - 48)) a =
      a * 10 ^ ds.length + digitsVal ds := by
  induction ds with
  | nil => intro a; simp [digitsVal]
  | cons c ds ih =>
    intro a
    rw [List.foldl_cons]
    rw [ih (a * 10 + (c.toNat - 48))]
    have h2 : digitsVal (c :: ds) = (c.toNat - 48) * 10 ^ ds.length + digitsVal ds := by
      show List.foldl _ ((0 : Nat) * 10 + (c.toNat - 48)) ds = _
      rw [ih (0 * 10 + (c.toNat - 48))]
      ring_nf
    rw [h2]
    simp [List.length_cons, pow_succ]
    ring

theorem pyDigitsCore_cons_digit (acc : Nat) (c : Char) (cs : List Char)
    (hc : c.isDigit) :
    pyDigitsCore acc (c :: cs) = pyDigitsCore (acc * 10 + (c.toNat - 48)) cs := by
  match cs with
  | [] => rw [pyDigitsCore.eq_2, if_pos hc]
  | d :: cs' => rw [pyDigitsCore.eq_3, if_pos hc]

theorem pyDigitsCore_digits (ds : List Char) :
    ∀ (acc : Nat) (rest : List Char), (∀ c ∈ ds, c.isDigit) →
      pyDigitsCore acc (ds ++ rest) =
        pyDigitsCore (acc * 10 ^ ds.length + digitsVal ds) rest := by
  induction ds with
  | nil =>
    intro acc rest _
    simp [digitsVal]
  | cons c ds ih =>
    intro acc rest hd
    have hc : c.isDigit := hd c (by simp)
    rw [List.cons_append, pyDigitsCore_cons_digit _ _ _ hc]
    rw [ih (acc * 10 + (c.toNat - 48)) rest (fun u hu => hd u (by simp [hu]))]
    have h2 : digitsVal (c :: ds) = (c.toNat - 48) * 10 ^ ds.length + digitsVal ds := by
      show List.foldl _ ((0 : Nat) * 10 + (c.toNat - 48)) ds = _
      rw [digitsVal_acc]
      ring_nf
    rw [h2]
    have : (acc * 10 + (c.toNat - 48)) * 10 ^ ds.length =
        acc * 10 ^ (ds.length + 1) + (c.toNat - 48) * 10 ^ ds.length := by
      rw [pow_succ]
      ring
    rw [this, List.length_cons]
    ring_nf

theorem pyDigitsStart_digits (ds : List Char) (hne : ds ≠ [])
    (hd : ∀ c ∈ ds, c.isDigit) : pyDigitsStart ds = some (digitsVal ds) := by
  match ds with
  | c :: cs =>
    have hc : c.isDigit := hd c (by simp)
    rw [pyDigitsStart, if_pos hc]
    have := pyDigitsCore_digits cs (c.toNat - 48) [] (fun u hu => hd u (by simp [hu]))
    rw [List.append_nil] at this
    rw [this]
    rw [show ∀ a : Nat, pyDigitsCore a [] = some a from fun a => rfl]
    have : digitsVal (c :: cs) = (c.toNat - 48) * 10 ^ cs.length + digitsVal cs := by
      show List.foldl _ ((0 : Nat) * 10 + (c.toNat - 48)) cs = _
      rw [digitsVal_acc]
      ring_nf
    rw [this]

theorem natDigitsAux_digits (fuel : Nat) :
    ∀ (n : Nat), n < fuel → ∀ c ∈ natDigitsAux fuel n, c.isDigit := by
  induction fuel with
  | zero => intro n h; omega
  | succ fuel ih =>
    intro n h c hc
    rw [natDigitsAux] at hc
    by_cases h10 : n < 10
    · rw [if_pos h10] at hc
      simp only [List.mem_singleton] at hc
      rw [hc]
      interval_cases n <;> decide
    · rw [if_neg h10] at hc
      rcases List.mem_append.mp hc with h1 | h1
      · exact ih (n / 10) (by omega) c h1
      · simp only [List.mem_singleton] at h1
        rw [h1]
        have hm : n % 10 < 10 := Nat.mod_lt _ (by omega)
        set m := n % 10 with hmdef
        interval_cases m <;> decide

theorem digitsVal_natDigitsAux (fuel : Nat) :
    ∀ (n : Nat), n < fuel → digitsVal (natDigitsAux fuel n) = n := by
  induction fuel with
  | zero => intro n h; omega
  | succ fuel ih =>
    intro n h
    rw [natDigitsAux]
    by_cases h10 : n < 10
    · rw [if_pos h10]
      show (0 : Nat) * 10 + ((Char.ofNat (48 + n)).toNat - 48) = n
      interval_cases n <;> decide
    · rw [if_neg h10]
      show List.foldl _ 0 (natDigitsAux fuel (n / 10) ++ [Char.ofNat (48 + n % 10)]) = n
      rw [List.foldl_append]
      have h1 : List.foldl (fun a c => a * 10 + (c.toNat - 48)) 0
          (natDigitsAux fuel (n / 10)) = n / 10 := ih (n / 10) (by omega)
      rw [h1]
      show n / 10 * 10 + ((Char.ofNat (48 + n % 10)).toNat - 48) = n
      have hm : n % 10 < 10 := Nat.mod_lt _ (by omega)
      have hval : (Char.ofNat (48 + n % 10)).toNat - 48 = n % 10 := by
        set m := n % 10 with hmdef
        interval_cases m <;> decide
      rw [hval]
      omega

theorem natDigitsAux_ne_nil (fuel n : Nat) (h : n < fuel) :
    natDigitsAux fuel n ≠ [] := by
  match fuel with
  | fuel + 1 =>
    rw [natDigitsAux]
    by_cases h10 : n < 10
    · rw [if_pos h10]
      exact List.cons_ne_nil _ _
    · rw [if_neg h10]
      intro hcon
      exact List.cons_ne_nil _ _ ((List.append_eq_nil.mp hcon).2)

theorem pyDigitsStart_natDigits (n : Nat) : pyDigitsStart (natDigits n) = some n := by
  rw [pyDigitsStart_digits (natDigits n) (natDigitsAux_ne_nil (n + 1) n (by omega))
    (natDigitsAux_digits (n + 1) n (by omega))]
  rw [natDigits, digitsVal_natDigitsAux (n + 1) n (by omega)]

theorem isDigit_ne (c : Char) (hd : c.isDigit) (x : Char) (hx : x.isDigit = false) :
    c ≠ x := by
  intro hcon
  rw [hcon] at hd
  rw [hd] at hx
  cases hx

theorem isDigit_not_space (c : Char) (hd : c.isDigit) : pyIsSpace c = false := by
  by_contra hcon
  simp only [Bool.not_eq_false] at hcon
  simp only [pyIsSpace, Bool.or_eq_true, decide_eq_true_eq] at hcon
  rcases hcon with ((((h | h) | h) | h) | h) | h <;>
    first
    | (subst h; exact absurd hd (by decide))
    | exact absurd hd (by decide)

/-- `int(str(p)) = p` for every Python integer. -/
theorem pyIntParse_toString (p : Int) : pyIntParse (pyIntToString p) = some p := by
  by_cases hp : p < 0
  · rw [pyIntToString, if_pos hp]
    show pyIntParse (String.mk ('-' :: natDigits p.natAbs)) = some p
    rw [pyIntParse]
    dsimp only
    rw [if_pos rfl]
    rw [pyDigitsStart_natDigits]
    show some (-((p.natAbs : Nat) : Int)) = some p
    congr 1
    omega
  · rw [pyIntToString, if_neg hp]
    show pyIntParse (String.mk (natDigits p.natAbs)) = some p
    match hds : natDigits p.natAbs with
    | [] => exact absurd hds (natDigitsAux_ne_nil (p.natAbs + 1) p.natAbs (by omega))
    | c :: cs =>
      have hc : c.isDigit := natDigitsAux_digits (p.natAbs + 1) p.natAbs (by omega) c
        (by rw [show natDigitsAux (p.natAbs + 1) p.natAbs = natDigits p.natAbs from rfl, hds]; simp)
      rw [pyIntParse]
      dsimp only
      rw [if_neg (isDigit_ne c hc '-' (by decide)), if_neg (isDigit_ne c hc '+' (by decide))]
      rw [← hds, pyDigitsStart_natDigits]
      show some (((p.natAbs : Nat) : Int)) = some p
      congr 1
      omega

end SshManager

namespace SshManager

set_option maxRecDepth 40000

/-! ## Token cleanliness: the fields that survive a lex/parse round trip -/

/-- Would `\bHost\b` match this whole token when followed by whitespace
or end of input? -/
def hostLikeTok (l : List Char) : Bool :=
  decide (l.take 4 = "Host".data) &&
  (match l.get? 4 with | none => true | some c => !isWordChar c)

/-- A character list that lexes as one `Item` token in any context:
non-empty, whitespace-free, not starting a comment, not the `Host`
keyword. -/
def cleanTokL (l : List Char) : Bool :=
  (!l.isEmpty) && l.all (fun c => !pyIsSpace c) &&
  !decide (l.head? = some '#') && !hostLikeTok l

/-- String version of `cleanTokL`. -/
def cleanTok (s : String) : Bool := cleanTokL s.data

/-- The lexer over the remaining input, with the before-position
character as `\b` context; fuel instantiated to the input length. -/
def lexFrom (prev : Option Char) (cs : List Char) : Except PyErr (List Tok) :=
  lexAux cs.length prev cs

theorem lexAux_congr (f : Nat) :
    ∀ (g : Nat) (prev : Option Char) (cs : List Char),
      cs.length ≤ f → cs.length ≤ g → lexAux f prev cs = lexAux g prev cs := by
  induction f with
  | zero =>
    intro g prev cs hf _
    have : cs = [] := List.length_eq_zero.mp (Nat.le_zero.mp hf)
    subst this
    cases g <;> rfl
  | succ f ih =>
    intro g prev cs hf hg
    match cs with
    | [] => cases g <;> rfl
    | c :: cs =>
      match g with
      | 0 => exact absurd hg (by simp)
      | g + 1 =>
        have hf' : cs.length ≤ f := by simpa using hf
        have hg' : cs.length ≤ g := by simpa using hg
        show lexAux (f + 1) prev (c :: cs) = lexAux (g + 1) prev (c :: cs)
        rw [lexAux, lexAux]
        by_cases hc : c = '#'
        · rw [if_pos hc, if_pos hc]
          dsimp only
          rw [ih g _ _ (le_trans (dropWhile_le_length cs) hf')
            (le_trans (dropWhile_le_length cs) hg')]
        · rw [if_neg hc, if_neg hc]
          by_cases hh : hostMatch prev (c :: cs)
          · rw [if_pos hh, if_pos hh]
            rw [ih g _ _ (by simp only [List.length_drop, List.length_cons]; omega)
              (by simp only [List.length_drop, List.length_cons]; omega)]
          · rw [if_neg hh, if_neg hh]
            by_cases hsp : pyIsSpace c
            · have hnsp : ¬((!pyIsSpace c) = true) := by simp [hsp]
              rw [if_neg hnsp, if_neg hnsp, if_pos hsp, if_pos hsp]
              have hdw : (c :: cs).dropWhile pyIsSpace = cs.dropWhile pyIsSpace :=
                List.dropWhile_cons_of_pos hsp
              rw [ih g _ _ (by rw [hdw]; exact le_trans (dropWhile_le_length cs) hf')
                (by rw [hdw]; exact le_trans (dropWhile_le_length cs) hg')]
            · have hnsp : (!pyIsSpace c) = true := by simp [hsp]
              rw [if_pos hnsp, if_pos hnsp]
              dsimp only
              have hdw : (c :: cs).dropWhile (fun x => !pyIsSpace x) =
                  cs.dropWhile (fun x => !pyIsSpace x) :=
                List.dropWhile_cons_of_pos hnsp
              rw [ih g _ _ (by rw [hdw]; exact le_trans (dropWhile_le_length cs) hf')
                (by rw [hdw]; exact le_trans (dropWhile_le_length cs) hg')]

theorem lexAux_eq_lexFrom (f : Nat) (prev : Option Char) (cs : List Char)
    (h : cs.length ≤ f) : lexAux f prev cs = lexFrom prev cs :=
  lexAux_congr f cs.length prev cs h (le_refl _)

theorem takeWhile_append_of (p : Char → Bool) (l rest : List Char)
    (hl : ∀ c ∈ l, p c = true) (hrest : ∀ c, rest.head? = some c → p c = false) :
    (l ++ rest).takeWhile p = l ∧ (l ++ rest).dropWhile p = rest := by
  induction l with
  | nil =>
    match rest with
    | [] => exact ⟨rfl, rfl⟩
    | c :: cs =>
      have := hrest c rfl
      constructor
      · simp [List.takeWhile_cons, this]
      · simp [List.dropWhile_cons, this]
  | cons c l ih =>
    have hc : p c = true := hl c (by simp)
    obtain ⟨h1, h2⟩ := ih (fun u hu => hl u (by simp [hu]))
    constructor
    · rw [List.cons_append, List.takeWhile_cons_of_pos hc, h1]
    · rw [List.cons_append, List.dropWhile_cons_of_pos hc, h2]

theorem isSpace_not_word (c : Char) (h : pyIsSpace c = true) : isWordChar c = false := by
  simp only [pyIsSpace, Bool.or_eq_true, decide_eq_true_eq] at h
  rcases h with ((((h | h) | h) | h) | h) | h <;> (subst h; decide)

theorem hostMatch_false_head (prev : Option Char) (l : List Char)
    (h : ∀ c, l.head? = some c → c ≠ 'H') : hostMatch prev l = false := by
  match l with
  | [] => simp [hostMatch]
  | c :: cs =>
    have ht : decide ((c :: cs).take 4 = "Host".data) = false := by
      simp only [decide_eq_false_iff_not]
      intro hcon
      have h0 := congrArg (fun z => z.get? 0) hcon
      simp only [List.get?_take (by omega : (0 : Nat) < 4)] at h0
      simp at h0
      exact h c rfl h0
    unfold hostMatch
    rw [ht]
    simp

end SshManager

namespace SshManager

set_option maxRecDepth 40000

theorem head?_of_take_eq (rest : List Char) (n : Nat) (c : Char) (l : List Char)
    (h : rest.take (n + 1) = c :: l) : rest.head? = some c := by
  match rest with
  | [] => simp at h
  | r :: rs =>
    rw [List.take_succ_cons] at h
    injection h with h1 _
    rw [h1]
    rfl

theorem hostMatch_host (prev : Option Char) (rest : List Char)
    (hb : ∀ p, prev = some p → isWordChar p = false)
    (ha : ∀ c, rest.head? = some c → isWordChar c = false) :
    hostMatch prev ("Host".data ++ rest) = true := by
  have h2 : decide (("Host".data ++ rest).take 4 = "Host".data) = true := by
    simp only [decide_eq_true_eq]
    exact List.take_left "Host".data rest
  have hgr : ("Host".data ++ rest).get? 4 = rest.head? := by
    rw [List.get?_append_right (by decide)]
    have h0 : 4 - "Host".data.length = 0 := by decide
    rw [h0]
    cases rest <;> rfl
  rcases prev with _ | p
  · unfold hostMatch
    rw [h2, hgr]
    cases hrh : rest.head? with
    | none => rfl
    | some c => simp [ha c hrh]
  · have hp : isWordChar p = false := hb p rfl
    unfold hostMatch
    rw [h2, hgr]
    cases hrh : rest.head? with
    | none => simp [hp]
    | some c => simp [hp, ha c hrh]

theorem hostMatch_false_clean (t : List Char) (prev : Option Char) (rest : List Char)
    (hclean : cleanTokL t = true)
    (hrest : ∀ c, rest.head? = some c → pyIsSpace c = true) :
    hostMatch prev (t ++ rest) = false := by
  simp only [cleanTokL, Bool.and_eq_true, Bool.not_eq_true', decide_eq_false_iff_not,
    Bool.not_eq_eq_eq_not, Bool.not_true, List.all_eq_true] at hclean
  obtain ⟨⟨⟨hne, hns⟩, hhash⟩, hhl⟩ := hclean
  have space_contra : ∀ (n : Nat) (c : Char) (l : List Char), pyIsSpace c = false →
      ¬ (rest.take (n + 1) = c :: l) := by
    intro n c l hc hcon
    have := hrest c (head?_of_take_eq rest n c l hcon)
    rw [this] at hc
    cases hc
  match t with
  | [] =>
    exact absurd hne (by decide)
  | [a] =>
    have hmid : decide (([a] ++ rest).take 4 = "Host".data) = false := by
      simp only [decide_eq_false_iff_not]
      intro hcon
      rw [List.cons_append, List.nil_append, List.take_succ_cons] at hcon
      injection hcon with _ h2
      exact space_contra 2 'o' ['s', 't'] (by decide) h2
    unfold hostMatch
    rw [hmid]
    simp
  | [a, b] =>
    have hmid : decide (([a, b] ++ rest).take 4 = "Host".data) = false := by
      simp only [decide_eq_false_iff_not]
      intro hcon
      rw [List.cons_append, List.cons_append, List.nil_append,
        List.take_succ_cons, List.take_succ_cons] at hcon
      injection hcon with _ h2
      injection h2 with _ h3
      exact space_contra 1 's' ['t'] (by decide) h3
    unfold hostMatch
    rw [hmid]
    simp
  | [a, b, c] =>
    have hmid : decide (([a, b, c] ++ rest).take 4 = "Host".data) = false := by
      simp only [decide_eq_false_iff_not]
      intro hcon
      rw [List.cons_append, List.cons_append, List.cons_append, List.nil_append,
        List.take_succ_cons, List.take_succ_cons, List.take_succ_cons] at hcon
      injection hcon with _ h2
      injection h2 with _ h3
      injection h3 with _ h4
      exact space_contra 0 't' [] (by decide) h4
    unfold hostMatch
    rw [hmid]
    simp
  | a :: b :: c :: d :: ts =>
    by_cases h4 : [a, b, c, d] = "Host".data
    · match ts with
      | [] =>
        exfalso
        have htrue : hostLikeTok [a, b, c, d] = true := by
          unfold hostLikeTok
          simp [h4, List.take_succ_cons]
        rw [htrue] at hhl
        exact absurd hhl (by decide)
      | e :: ts' =>
        have hword : isWordChar e = true := by
          by_contra hcon
          have hew : isWordChar e = false := by simpa using hcon
          have htrue : hostLikeTok (a :: b :: c :: d :: e :: ts') = true := by
            unfold hostLikeTok
            simp [h4, hew, List.take_succ_cons]
          rw [htrue] at hhl
          exact absurd hhl (by decide)
        have hg4 : ((a :: b :: c :: d :: e :: ts') ++ rest).get? 4 = some e := rfl
        unfold hostMatch
        rw [hg4]
        simp [hword]
    · have htake : ((a :: b :: c :: d :: ts) ++ rest).take 4 = [a, b, c, d] := by
        simp [List.take_succ_cons]
      unfold hostMatch
      rw [htake]
      simp [h4]

end SshManager

namespace SshManager

set_option maxRecDepth 40000

/-! ## Lexer unit steps: whitespace runs, comments, `Host`, items -/

theorem lexFrom_ws (ws : List Char) (prev : Option Char) (rest : List Char)
    (hne : ws ≠ []) (hws : ∀ c ∈ ws, pyIsSpace c = true)
    (hrest : ∀ c, rest.head? = some c → pyIsSpace c = false) :
    lexFrom prev (ws ++ rest) = lexFrom ws.getLast? rest := by
  match ws with
  | c :: ws' =>
    have hc : pyIsSpace c = true := hws c (by simp)
    have hchash : ¬(c = '#') := by
      intro hcon
      rw [hcon] at hc
      exact absurd hc (by decide)
    have hchost : hostMatch prev (c :: (ws' ++ rest)) = false := by
      apply hostMatch_false_head
      intro u hu hcon
      simp only [List.head?_cons, Option.some.injEq] at hu
      rw [← hu] at hcon
      rw [hcon] at hc
      exact absurd hc (by decide)
    obtain ⟨htw, hdw⟩ := takeWhile_append_of pyIsSpace (c :: ws') rest hws hrest
    show lexAux ((c :: ws') ++ rest).length prev ((c :: ws') ++ rest) = _
    rw [List.cons_append]
    rw [show (c :: (ws' ++ rest)).length = (ws' ++ rest).length + 1 from rfl]
    rw [lexAux]
    rw [if_neg hchash, if_neg (by simp [hchost])]
    rw [if_neg (by simp [hc]), if_pos hc]
    rw [← List.cons_append, htw, hdw]
    exact lexAux_eq_lexFrom _ _ _ (by simp)

theorem lexFrom_comment (body : List Char) (prev : Option Char) (rest : List Char)
    (toks : List Tok)
    (hbody : ∀ c ∈ body, (c = '
') = False)
    (hrest : ∀ c, rest.head? = some c → c = '
')
    (hres : lexFrom ('#' :: body).getLast? rest = .ok toks) :
    lexFrom prev ('#' :: body ++ rest) =
      .ok (⟨.comment, String.mk ('#' :: body)⟩ :: toks) := by
  obtain ⟨htw, hdw⟩ := takeWhile_append_of (fun x => x ≠ '
') body rest
    (by intro u hu; simpa using hbody u hu)
    (by intro u hu; simp [hrest u hu])
  show lexAux ('#' :: (body ++ rest)).length prev ('#' :: (body ++ rest)) = _
  rw [show ('#' :: (body ++ rest)).length = (body ++ rest).length + 1 from rfl]
  rw [lexAux]
  rw [if_pos rfl]
  dsimp only
  rw [htw, hdw]
  rw [lexAux_eq_lexFrom _ _ _ (by simp), hres]
  rfl

theorem lexFrom_host (prev : Option Char) (rest : List Char) (toks : List Tok)
    (hb : ∀ p, prev = some p → isWordChar p = false)
    (ha : ∀ c, rest.head? = some c → isWordChar c = false)
    (hres : lexFrom (some 't') rest = .ok toks) :
    lexFrom prev ("Host".data ++ rest) = .ok (⟨.host, "Host"⟩ :: toks) := by
  have hm := hostMatch_host prev rest hb ha
  show lexAux ("Host".data ++ rest).length prev ("Host".data ++ rest) = _
  rw [show ("Host".data ++ rest).length = ('o' :: 's' :: 't' :: rest).length + 1 from rfl]
  rw [show ("Host".data ++ rest) = 'H' :: ('o' :: 's' :: 't' :: rest) from rfl] at hm ⊢
  rw [lexAux]
  rw [if_neg (by decide), if_pos hm]
  rw [show ('H' :: ('o' :: 's' :: 't' :: rest)).drop 4 = rest from rfl]
  rw [lexAux_eq_lexFrom _ _ _ (by simp only [List.length_cons]; omega), hres]
  rfl

theorem lexFrom_item (t : List Char) (prev : Option Char) (rest : List Char)
    (toks : List Tok)
    (hclean : cleanTokL t = true)
    (hrest : ∀ c, rest.head? = some c → pyIsSpace c = true)
    (hres : lexFrom t.getLast? rest = .ok toks) :
    lexFrom prev (t ++ rest) = .ok (⟨.item, String.mk t⟩ :: toks) := by
  have hfacts := hclean
  simp only [cleanTokL, Bool.and_eq_true, Bool.not_eq_true', decide_eq_false_iff_not,
    Bool.not_eq_eq_eq_not, Bool.not_true, List.all_eq_true] at hfacts
  obtain ⟨⟨⟨hne, hns⟩, hhash⟩, _⟩ := hfacts
  match t with
  | c :: t' =>
    have hcns : pyIsSpace c = false := by simpa using hns c (by simp)
    have hchash : ¬(c = '#') := by
      intro hcon
      apply hhash
      rw [hcon]
      rfl
    have hchost : hostMatch prev (c :: (t' ++ rest)) = false := by
      have := hostMatch_false_clean (c :: t') prev rest hclean hrest
      rw [List.cons_append] at this
      exact this
    obtain ⟨htw, hdw⟩ := takeWhile_append_of (fun x => !pyIsSpace x) (c :: t') rest
      (by intro u hu; simpa using hns u hu)
      (by intro u hu; simp [hrest u hu])
    show lexAux ((c :: t') ++ rest).length prev ((c :: t') ++ rest) = _
    rw [List.cons_append]
    rw [show (c :: (t' ++ rest)).length = (t' ++ rest).length + 1 from rfl]
    rw [lexAux]
    rw [if_neg hchash, if_neg (by simp [hchost])]
    rw [if_pos (by simp [hcns])]
    dsimp only
    rw [← List.cons_append, htw, hdw]
    rw [lexAux_eq_lexFrom _ _ _ (by simp), hres]
    rfl

end SshManager

namespace SshManager

set_option maxRecDepth 40000

/-! ## Clean entries and their token streams -/

/-- A comment body that survives the render/parse round trip. -/
def cleanComment (c : String) : Bool :=
  (!decide (c = "")) && decide (pyStrip c = c) && !c.data.contains '\n'

/-- Endpoint fields as the parser reproduces them. -/
def cleanEndpoint (e : SSHEndpoint) : Bool :=
  (match e.hostname with | none => true | some h => cleanTok h) &&
  (if e.hostname = none ∧ e.port = none then decide (e.comment = none)
   else decide (e.comment = some ""))

/-- Authentication fields as the parser reproduces them. -/
def cleanAuth (a : SSHAuthentication) : Bool :=
  decide (a.original_identity_file = none) &&
  (match a.user with | none => true | some u => cleanTok u) &&
  (match a.identity_file with | none => true | some f => cleanTok f) &&
  (if a.user = none ∧ a.identity_file = none then decide (a.comment = none)
   else decide (a.comment = some ""))

/-- Extra-directive fields as the parser reproduces them. -/
def cleanExtra (x : SSHExtraConfig) : Bool :=
  (match x.key with
   | some k => cleanTok k && decide (k ≠ "HostName") && decide (k ≠ "Port") &&
       decide (k ≠ "User") && decide (k ≠ "IdentityFile")
   | none => false) &&
  (match x.value with | some v => cleanTok v | none => false) &&
  (match x.comment with | none => true | some c => cleanComment c)

/-- A host entry whose rendering re-parses to itself. -/
def cleanCfg (cfg : SSHHostConfig) : Bool :=
  (match cfg.name with | some n => cleanTok n | none => false) &&
  decide (cfg.comment = none) &&
  cleanEndpoint cfg.endpoint && cleanAuth cfg.authentication &&
  cfg.extra_config.all cleanExtra

/-- Token stream of the endpoint's directives. -/
def epToks (hn : Option String) (pt : Option Int) : List Tok :=
  (match hn with | none => [] | some h => [⟨.item, "HostName"⟩, ⟨.item, h⟩]) ++
  (match pt with | none => [] | some p => [⟨.item, "Port"⟩, ⟨.item, pyIntToString p⟩])

/-- Token stream of the authentication's directives. -/
def auToks (us idf : Option String) : List Tok :=
  (match us with | none => [] | some u => [⟨.item, "User"⟩, ⟨.item, u⟩]) ++
  (match idf with | none => [] | some f => [⟨.item, "IdentityFile"⟩, ⟨.item, f⟩])

/-- Token stream of the extra directives. -/
def exToks (xs : List SSHExtraConfig) : List Tok :=
  xs.flatMap (fun x =>
    (match x.comment with | none => [] | some c => [⟨.comment, "# " ++ c⟩]) ++
    [⟨.item, x.key.getD ""⟩, ⟨.item, x.value.getD ""⟩])

/-- Token stream of one entry's directive lines. -/
def entryDirToks (cfg : SSHHostConfig) : List Tok :=
  epToks cfg.endpoint.hostname cfg.endpoint.port ++
  auToks cfg.authentication.user cfg.authentication.identity_file ++
  exToks cfg.extra_config

/-- Token stream of one entry's block. -/
def entryToks (cfg : SSHHostConfig) : List Tok :=
  ⟨.host, "Host"⟩ :: ⟨.item, cfg.name.getD ""⟩ :: entryDirToks cfg

/-- Token stream of the whole rendered document. -/
def docToks (l : List SSHHostConfig) : List Tok :=
  ⟨.comment, sentinel⟩ :: l.flatMap entryToks

/-! ## Parser steps over these streams -/

theorem parseDirectives_stop_host (cfg : SSHHostConfig) (com : String) (u : Tok)
    (us : List Tok) (hu : u.kind = .host) :
    parseDirectives cfg com (u :: us) = .ok (cfg, u :: us) := by
  have hnc : ¬(u.kind = TokKind.comment) := by
    rw [hu]
    decide
  match us with
  | [] => rw [parseDirectives.eq_2, if_neg hnc, if_pos hu]
  | v :: us' => rw [parseDirectives.eq_3, if_neg hnc, if_pos hu]

theorem parseDirectives_step_kv (cfg cfg' : SSHHostConfig) (k v com : String)
    (ts : List Tok) (hadd : cfg.addConfig k v com = .ok cfg') :
    parseDirectives cfg com (⟨.item, k⟩ :: ⟨.item, v⟩ :: ts) = parseDirectives cfg' "" ts := by
  rw [parseDirectives.eq_3]
  rw [if_neg (fun h => TokKind.noConfusion h), if_neg (fun h => TokKind.noConfusion h),
    if_neg (fun h => h rfl), if_neg (fun h => h rfl)]
  rw [hadd, except_ok_bind]

theorem parseDirectives_step_comment (cfg : SSHHostConfig) (com txt : String)
    (ts : List Tok) :
    parseDirectives cfg com (⟨.comment, txt⟩ :: ts) =
      parseDirectives cfg (com ++ pySlice1 txt ++ " ") ts := by
  match ts with
  | [] => rw [parseDirectives.eq_2, if_pos rfl]
  | v :: ts' => rw [parseDirectives.eq_3, if_pos rfl]

theorem pyStripData_cons_space (l : List Char) :
    pyStripData (' ' :: l) = pyStripData l := by
  unfold pyStripData
  rw [List.dropWhile_cons_of_pos (by decide)]

/-- The pending comment a `# c` line accumulates strips back to `c`. -/
theorem pendingComment_strip (c : String) (h1 : pyStrip c = c) (h2 : ¬(c = "")) :
    strOrNone (some ("" ++ pySlice1 ("# " ++ c) ++ " ")) = some c := by
  have hdata : ("" ++ pySlice1 ("# " ++ c) ++ " ").data = ' ' :: (c.data ++ [' ']) := by
    simp [String.data_append, pySlice1]
  have hne : ¬("" ++ pySlice1 ("# " ++ c) ++ " " = "") := by
    intro hcon
    have := congrArg String.data hcon
    rw [hdata] at this
    cases this
  rw [strOrNone, if_neg hne]
  congr 1
  show String.mk (pyStripData (("" ++ pySlice1 ("# " ++ c) ++ " ").data)) = c
  rw [hdata, pyStripData_cons_space, pyStripData_append_space]
  exact h1

/-- A clean token passes `get_stripped_string_or_none` unchanged. -/
theorem strOrNone_clean (s : String) (h : cleanTok s = true) :
    strOrNone (some s) = some s := by
  simp only [cleanTok, cleanTokL, Bool.and_eq_true, Bool.not_eq_true',
    decide_eq_false_iff_not, Bool.not_eq_eq_eq_not, Bool.not_true, List.all_eq_true] at h
  obtain ⟨⟨⟨hne, hns⟩, _⟩, _⟩ := h
  have hne2 : ¬(s = "") := by
    intro hcon
    rw [hcon] at hne
    exact absurd hne (by decide)
  rw [strOrNone, if_neg hne2]
  rw [pyStrip_no_space s (by intro ch hch; simpa using hns ch hch)]

end SshManager

namespace SshManager

set_option maxRecDepth 40000

theorem fold_ep (nm : String) (hn : Option String) (pt : Option Int) (ts : List Tok) :
    parseDirectives ⟨some nm, none, SSHEndpoint.empty, SSHAuthentication.empty, []⟩ ""
      (epToks hn pt ++ ts) =
    parseDirectives ⟨some nm, none,
      ⟨hn, pt, if hn = none ∧ pt = none then none else some ""⟩,
      SSHAuthentication.empty, []⟩ "" ts := by
  rcases hn with _ | h <;> rcases pt with _ | p
  · rfl
  · show parseDirectives _ "" (⟨.item, "Port"⟩ :: ⟨.item, pyIntToString p⟩ :: ts) = _
    rw [parseDirectives_step_kv _ _ _ _ _ _ (addConfig_port _ _ _ p (pyIntParse_toString p))]
    rfl
  · show parseDirectives _ "" (⟨.item, "HostName"⟩ :: ⟨.item, h⟩ :: ts) = _
    rw [parseDirectives_step_kv _ _ _ _ _ _ (addConfig_hostname _ _ _)]
    rfl
  · show parseDirectives _ ""
        (⟨.item, "HostName"⟩ :: ⟨.item, h⟩ :: ⟨.item, "Port"⟩ :: ⟨.item, pyIntToString p⟩ :: ts) = _
    rw [parseDirectives_step_kv _ _ _ _ _ _ (addConfig_hostname _ _ _)]
    rw [parseDirectives_step_kv _ _ _ _ _ _ (addConfig_port _ _ _ p (pyIntParse_toString p))]
    rfl

theorem fold_auth (nm : String) (e : SSHEndpoint) (us idf : Option String) (ts : List Tok) :
    parseDirectives ⟨some nm, none, e, SSHAuthentication.empty, []⟩ ""
      (auToks us idf ++ ts) =
    parseDirectives ⟨some nm, none, e,
      ⟨us, none, idf, if us = none ∧ idf = none then none else some ""⟩, []⟩ "" ts := by
  rcases us with _ | u <;> rcases idf with _ | f
  · rfl
  · show parseDirectives _ "" (⟨.item, "IdentityFile"⟩ :: ⟨.item, f⟩ :: ts) = _
    rw [parseDirectives_step_kv _ _ _ _ _ _ (addConfig_identity _ _ _)]
    rfl
  · show parseDirectives _ "" (⟨.item, "User"⟩ :: ⟨.item, u⟩ :: ts) = _
    rw [parseDirectives_step_kv _ _ _ _ _ _ (addConfig_user _ _ _)]
    rfl
  · show parseDirectives _ ""
        (⟨.item, "User"⟩ :: ⟨.item, u⟩ :: ⟨.item, "IdentityFile"⟩ :: ⟨.item, f⟩ :: ts) = _
    rw [parseDirectives_step_kv _ _ _ _ _ _ (addConfig_user _ _ _)]
    rw [parseDirectives_step_kv _ _ _ _ _ _ (addConfig_identity _ _ _)]
    rfl

theorem fold_extras (xs : List SSHExtraConfig) :
    ∀ (s : SSHHostConfig) (rest : List Tok),
      (∀ x ∈ xs, cleanExtra x = true) →
      (rest = [] ∨ ∃ u us, rest = u :: us ∧ u.kind = .host) →
      parseDirectives s "" (exToks xs ++ rest) =
        .ok (⟨s.name, s.comment, s.endpoint, s.authentication, s.extra_config ++ xs⟩, rest) := by
  induction xs with
  | nil =>
    intro s rest _ hrest
    have hs : (⟨s.name, s.comment, s.endpoint, s.authentication,
        s.extra_config ++ []⟩ : SSHHostConfig) = s := by
      simp
    rw [hs]
    show parseDirectives s "" rest = .ok (s, rest)
    rcases hrest with h | ⟨u, us, hr, hu⟩
    · rw [h]
      exact parseDirectives.eq_1 s ""
    · rw [hr]
      exact parseDirectives_stop_host s "" u us hu
  | cons x xs ih =>
    intro s rest hcl hrest
    obtain ⟨xk, xv, xc⟩ := x
    have hx := hcl ⟨xk, xv, xc⟩ (by simp)
    match hxk : xk with
    | none =>
      simp [cleanExtra] at hx
    | some k =>
      match hxv : xv with
      | none =>
        simp [cleanExtra] at hx
      | some v =>
        simp only [cleanExtra, Bool.and_eq_true, decide_eq_true_eq] at hx
        obtain ⟨⟨⟨⟨⟨⟨hk, hk1⟩, hk2⟩, hk3⟩, hk4⟩, hv⟩, hc⟩ := hx
        have hother := addConfig_other s k v
        cases xc with
        | none =>
          show parseDirectives s "" (⟨.item, k⟩ :: ⟨.item, v⟩ :: (exToks xs ++ rest)) = _
          rw [parseDirectives_step_kv _ _ _ _ _ _ (hother "" hk1 hk2 hk3 hk4)]
          rw [ih _ rest (fun u hu => hcl u (by simp [hu])) hrest]
          have hinit : SSHExtraConfig.init (some k) (some v) (some "") =
              ⟨some k, some v, none⟩ := by
            show (⟨strOrNone (some k), strOrNone (some v), strOrNone (some "")⟩ :
              SSHExtraConfig) = _
            rw [strOrNone_clean k hk, strOrNone_clean v hv]
            rfl
          rw [hinit]
          simp
        | some c =>
          simp only [cleanComment, Bool.and_eq_true, Bool.not_eq_true',
            decide_eq_true_eq, decide_eq_false_iff_not] at hc
          obtain ⟨⟨hcne, hcstrip⟩, _⟩ := hc
          show parseDirectives s ""
            (⟨.comment, "# " ++ c⟩ :: ⟨.item, k⟩ :: ⟨.item, v⟩ :: (exToks xs ++ rest)) = _
          rw [parseDirectives_step_comment]
          rw [parseDirectives_step_kv _ _ _ _ _ _ (hother _ hk1 hk2 hk3 hk4)]
          rw [ih _ rest (fun u hu => hcl u (by simp [hu])) hrest]
          have hinit : SSHExtraConfig.init (some k) (some v)
              (some ("" ++ pySlice1 ("# " ++ c) ++ " ")) = ⟨some k, some v, some c⟩ := by
            show (⟨strOrNone (some k), strOrNone (some v),
              strOrNone (some ("" ++ pySlice1 ("# " ++ c) ++ " "))⟩ : SSHExtraConfig) = _
            rw [strOrNone_clean k hk, strOrNone_clean v hv,
              pendingComment_strip c hcstrip hcne]
          rw [hinit]
          simp

end SshManager

namespace SshManager

set_option maxRecDepth 40000

theorem parseDirectives_clean_entry (cfg : SSHHostConfig) (hclean : cleanCfg cfg = true)
    (nm : String) (hname : cfg.name = some nm)
    (rest : List Tok)
    (hrest : rest = [] ∨ ∃ u us, rest = u :: us ∧ u.kind = .host) :
    parseDirectives ⟨some nm, none, SSHEndpoint.empty, SSHAuthentication.empty, []⟩ ""
      (entryDirToks cfg ++ rest) = .ok (cfg, rest) := by
  obtain ⟨nopt, cm, e, a, xs⟩ := cfg
  obtain ⟨eh, epv, ec⟩ := e
  obtain ⟨au, ao, af, ac⟩ := a
  simp only at hname
  subst hname
  simp only [cleanCfg, cleanEndpoint, cleanAuth, Bool.and_eq_true, decide_eq_true_eq,
    List.all_eq_true] at hclean
  obtain ⟨⟨⟨⟨_, hcm⟩, ⟨_, hecif⟩⟩, ⟨⟨⟨hao, _⟩, _⟩, hacif⟩⟩, hxs⟩ := hclean
  subst hcm
  subst hao
  show parseDirectives _ "" ((epToks eh epv ++ auToks au af ++ exToks xs) ++ rest) = _
  rw [List.append_assoc, List.append_assoc]
  rw [fold_ep nm eh epv _]
  rw [fold_auth nm _ au af _]
  rw [fold_extras xs _ rest hxs hrest]
  have hec : (if eh = none ∧ epv = none then (none : Option String) else some "") = ec := by
    by_cases hcase : eh = none ∧ epv = none
    · rw [if_pos hcase]
      rw [if_pos hcase] at hecif
      exact (of_decide_eq_true hecif).symm
    · rw [if_neg hcase]
      rw [if_neg hcase] at hecif
      exact (of_decide_eq_true hecif).symm
  have hac : (if au = none ∧ af = none then (none : Option String) else some "") = ac := by
    by_cases hcase : au = none ∧ af = none
    · rw [if_pos hcase]
      rw [if_pos hcase] at hacif
      exact (of_decide_eq_true hacif).symm
    · rw [if_neg hcase]
      rw [if_neg hcase] at hacif
      exact (of_decide_eq_true hacif).symm
  rw [hec, hac]
  rw [List.nil_append]

theorem skipComments_noncomment (acc : String) (t : Tok) (ts : List Tok)
    (h : t.kind ≠ .comment) : skipComments acc (t :: ts) = .ok (acc, t :: ts) := by
  simp [skipComments, h]

theorem parseHostConfig_entry (cfg : SSHHostConfig) (hclean : cleanCfg cfg = true)
    (rest : List Tok)
    (hrest : rest = [] ∨ ∃ u us, rest = u :: us ∧ u.kind = .host) :
    parseHostConfig (entryToks cfg ++ rest) = .ok (cfg, rest) := by
  have hname : ∃ nm, cfg.name = some nm ∧ cleanTok nm = true := by
    have h := hclean
    simp only [cleanCfg, Bool.and_eq_true] at h
    match hn : cfg.name with
    | some n =>
      rw [hn] at h
      exact ⟨n, rfl, h.1.1.1.1⟩
    | none =>
      rw [hn] at h
      simp at h
  obtain ⟨nm, hnm, hnmclean⟩ := hname
  rw [parseHostConfig]
  rw [show entryToks cfg ++ rest = (⟨TokKind.host, "Host"⟩ : Tok) ::
    ((⟨TokKind.item, cfg.name.getD ""⟩ : Tok) :: (entryDirToks cfg ++ rest)) from rfl]
  rw [skipComments_noncomment "" (⟨TokKind.host, "Host"⟩)
    (⟨TokKind.item, cfg.name.getD ""⟩ :: (entryDirToks cfg ++ rest))
    (fun h => TokKind.noConfusion h)]
  rw [except_ok_bind]
  dsimp only
  rw [if_neg (fun h => h rfl), if_neg (fun h => h rfl)]
  have hinit : SSHHostConfig.init (some (cfg.name.getD "")) (some "") =
      ⟨some nm, none, SSHEndpoint.empty, SSHAuthentication.empty, []⟩ := by
    rw [hnm]
    show (⟨strOrNone (some nm), strOrNone (some ""), SSHEndpoint.empty,
      SSHAuthentication.empty, []⟩ : SSHHostConfig) = _
    rw [strOrNone_clean nm hnmclean]
    rfl
  rw [hinit]
  exact parseDirectives_clean_entry cfg hclean nm hnm rest hrest

theorem entryToks_length (cfg : SSHHostConfig) : 2 ≤ (entryToks cfg).length := by
  show 2 ≤ (⟨TokKind.host, "Host"⟩ :: ⟨TokKind.item, cfg.name.getD ""⟩ ::
    entryDirToks cfg).length
  simp only [List.length_cons]
  omega

theorem flatMap_entryToks_head (l : List SSHHostConfig) :
    l.flatMap entryToks = [] ∨
      ∃ u us, l.flatMap entryToks = u :: us ∧ u.kind = .host := by
  match l with
  | [] => exact Or.inl rfl
  | c :: l' =>
    right
    refine ⟨⟨.host, "Host"⟩, ⟨TokKind.item, c.name.getD ""⟩ :: entryDirToks c ++
      l'.flatMap entryToks, ?_, rfl⟩
    rfl

theorem parseTopAux_entries (l : List SSHHostConfig) :
    ∀ (fuel : Nat), (∀ cfg ∈ l, cleanCfg cfg = true) →
      (l.flatMap entryToks).length ≤ fuel →
      parseTopAux fuel (l.flatMap entryToks) = .ok l := by
  induction l with
  | nil =>
    intro fuel _ _
    cases fuel <;> rfl
  | cons c l' ih =>
    intro fuel hclean hlen
    have hflat : (c :: l').flatMap entryToks =
        ⟨TokKind.host, "Host"⟩ :: (⟨TokKind.item, c.name.getD ""⟩ ::
          entryDirToks c ++ l'.flatMap entryToks) := rfl
    match fuel with
    | 0 =>
      exfalso
      rw [hflat] at hlen
      simp at hlen
    | fuel + 1 =>
      rw [hflat, parseTopAux]
      rw [if_neg (by simp)]
      have hpc := parseHostConfig_entry c (hclean c (by simp)) (l'.flatMap entryToks)
        (flatMap_entryToks_head l')
      rw [show (⟨TokKind.host, "Host"⟩ : Tok) :: (⟨TokKind.item, c.name.getD ""⟩ ::
        entryDirToks c ++ l'.flatMap entryToks) = entryToks c ++ l'.flatMap entryToks
        from rfl]
      rw [hpc, except_ok_bind]
      dsimp only
      have hih : parseTopAux fuel (l'.flatMap entryToks) = .ok l' := by
        apply ih fuel (fun u hu => hclean u (by simp [hu]))
        have h1 := entryToks_length c
        rw [hflat] at hlen
        simp only [List.length_cons, List.length_append] at hlen
        omega
      rw [hih, except_ok_bind]

theorem parseTop_doc (l : List SSHHostConfig) (hclean : ∀ cfg ∈ l, cleanCfg cfg = true) :
    parseTopAux (docToks l).length (docToks l) = .ok l := by
  show parseTopAux ((⟨TokKind.comment, sentinel⟩ : Tok) :: l.flatMap entryToks).length
    (⟨TokKind.comment, sentinel⟩ :: l.flatMap entryToks) = .ok l
  rw [show ((⟨TokKind.comment, sentinel⟩ : Tok) :: l.flatMap entryToks).length =
    (l.flatMap entryToks).length + 1 from rfl]
  rw [parseTopAux]
  rw [if_pos (by simp)]
  exact parseTopAux_entries l (l.flatMap entryToks).length hclean (le_refl _)

end SshManager

namespace SshManager

set_option maxRecDepth 40000

/-! ## Character-class facts for the rendered text -/

theorem space_not_word (c : Char) (h : pyIsSpace c = true) : isWordChar c = false := by
  simp only [pyIsSpace, Bool.or_eq_true, decide_eq_true_eq] at h
  rcases h with ((((h | h) | h) | h) | h) | h <;> subst h <;> decide

theorem head_not_p_of_dropWhile_eq_self (p : Char → Bool) (l : List Char)
    (h : l.dropWhile p = l) : ∀ c, l.head? = some c → p c = false := by
  match l with
  | [] => intro c hc; cases hc
  | c :: rest =>
    intro u hu
    simp only [List.head?_cons, Option.some.injEq] at hu
    by_cases hp : p c = true
    · rw [List.dropWhile_cons_of_pos hp] at h
      have h1 := dropWhile_le_length rest (p := p)
      have h2 := congrArg List.length h
      simp only [List.length_cons] at h2
      omega
    · rw [← hu]
      simpa using hp

theorem dropWhile_eq_self_of_length (p : Char → Bool) (l : List Char)
    (h : (l.dropWhile p).length = l.length) : l.dropWhile p = l := by
  match l with
  | [] => rfl
  | c :: rest =>
    by_cases hp : p c = true
    · rw [List.dropWhile_cons_of_pos hp] at h ⊢
      have h1 := dropWhile_le_length rest (p := p)
      simp only [List.length_cons] at h
      omega
    · rw [List.dropWhile_cons_of_neg (by simpa using hp)]

theorem stripSelf_dropWhile (l : List Char) (h : pyStripData l = l) :
    l.dropWhile pyIsSpace = l := by
  apply dropWhile_eq_self_of_length
  have hlen := congrArg List.length h
  unfold pyStripData at hlen
  simp only [List.length_reverse] at hlen
  have h1 := dropWhile_le_length (l.dropWhile pyIsSpace).reverse (p := pyIsSpace)
  have h2 := dropWhile_le_length l (p := pyIsSpace)
  simp only [List.length_reverse] at h1
  omega

theorem stripSelf_head (l : List Char) (h : pyStripData l = l) :
    ∀ c, l.head? = some c → pyIsSpace c = false :=
  head_not_p_of_dropWhile_eq_self pyIsSpace l (stripSelf_dropWhile l h)

theorem stripSelf_last (l : List Char) (h : pyStripData l = l) :
    ∀ c, l.getLast? = some c → pyIsSpace c = false := by
  have hdw := stripSelf_dropWhile l h
  have h2 : l.reverse.dropWhile pyIsSpace = l.reverse := by
    have h3 : pyStripData l = l := h
    unfold pyStripData at h3
    rw [hdw] at h3
    have := congrArg List.reverse h3
    rwa [List.reverse_reverse] at this
  intro c hc
  apply head_not_p_of_dropWhile_eq_self pyIsSpace l.reverse h2
  rw [List.head?_reverse]
  exact hc

/-! ## The decimal rendering of an integer is a clean token -/

theorem natDigits_ne_nil (n : Nat) : natDigits n ≠ [] := by
  unfold natDigits natDigitsAux
  by_cases hn : n < 10
  · rw [if_pos hn]; simp
  · rw [if_neg hn]; simp

theorem natDigits_digits (n : Nat) : ∀ c ∈ natDigits n, c.isDigit :=
  natDigitsAux_digits (n + 1) n (by omega)

theorem cleanTokL_of_facts (l : List Char) (hne : l ≠ [])
    (hns : ∀ c ∈ l, pyIsSpace c = false)
    (hhead : ∀ c, l.head? = some c → ¬(c = '#') ∧ ¬(c = 'H')) :
    cleanTokL l = true := by
  match l with
  | c :: rest =>
    obtain ⟨hhash, hH⟩ := hhead c rfl
    simp only [cleanTokL, Bool.and_eq_true, Bool.not_eq_true']
    refine ⟨⟨⟨by simp, ?_⟩, ?_⟩, ?_⟩
    · simp only [List.all_eq_true]
      intro u hu
      simp [hns u hu]
    · simp [hhash]
    · simp only [hostLikeTok, Bool.and_eq_false_iff]
      left
      simp only [decide_eq_false_iff_not]
      intro hcon
      rw [show ((c :: rest).take 4) = c :: rest.take 3 from rfl] at hcon
      injection hcon with h1 _
      exact hH h1

theorem cleanTok_intToString (p : Int) : cleanTok (pyIntToString p) = true := by
  rw [cleanTok, pyIntToString]
  by_cases hp : p < 0
  · rw [if_pos hp]
    apply cleanTokL_of_facts
    · simp
    · intro c hc
      rcases List.mem_cons.mp hc with h | h
      · subst h; decide
      · exact isDigit_not_space c (natDigits_digits _ c h)
    · intro c hc
      simp only [List.head?_cons, Option.some.injEq] at hc
      rw [← hc]
      exact ⟨by decide, by decide⟩
  · rw [if_neg hp]
    apply cleanTokL_of_facts
    · simpa using natDigits_ne_nil p.natAbs
    · intro c hc
      exact isDigit_not_space c (natDigits_digits _ c hc)
    · intro c hc
      have hmem : c ∈ natDigits p.natAbs := by
        match hl : natDigits p.natAbs with
        | [] => exact absurd hl (natDigits_ne_nil _)
        | x :: xs =>
          rw [hl] at hc
          simp only [List.head?_cons, Option.some.injEq] at hc
          rw [← hc]
          simp
      have hd := natDigits_digits _ c hmem
      exact ⟨isDigit_ne c hd '#' (by decide), isDigit_ne c hd 'H' (by decide)⟩

end SshManager

namespace SshManager

set_option maxRecDepth 40000

/-! ## Segment decomposition of the rendered document

The rendered text alternates token spans and whitespace runs; lexing is
proved segment by segment, each segment constrained by the first
character of what follows it. -/

/-- One span of the rendered document: a token's characters or a
whitespace run. -/
inductive Seg where
  | tok (t : Tok)
  | ws (cs : List Char)
  deriving Repr

/-- Characters of one segment. -/
def segData : Seg → List Char
  | .tok t => t.text.data
  | .ws cs => cs

/-- Characters of a segment list. -/
def segsData (segs : List Seg) : List Char := segs.flatMap segData

/-- Tokens of a segment list. -/
def segsToks (segs : List Seg) : List Tok :=
  segs.filterMap (fun s => match s with | .tok t => some t | .ws _ => none)

/-- One segment is well formed before the characters `d` that follow
it. -/
def segOK : Seg → List Char → Prop
  | .ws cs, d => cs ≠ [] ∧ (∀ c ∈ cs, pyIsSpace c = true) ∧
      (∀ c, d.head? = some c → pyIsSpace c = false)
  | .tok t, d =>
    match t.kind with
    | .comment => (∃ body, t.text.data = '#' :: body ∧ ∀ c ∈ body, ¬(c = '\n')) ∧
        (∀ c, d.head? = some c → c = '\n')
    | .host => t.text = "Host" ∧ (∀ c, d.head? = some c → isWordChar c = false)
    | .item => cleanTokL t.text.data = true ∧ (∀ c, d.head? = some c → pyIsSpace c = true)

/-- A segment list is well formed before the continuation characters
`k`. -/
def SegsOK : List Seg → List Char → Prop
  | [], _ => True
  | s :: rest, k => segOK s (segsData rest ++ k) ∧ SegsOK rest k

theorem segsData_cons (s : Seg) (rest : List Seg) :
    segsData (s :: rest) = segData s ++ segsData rest := by
  simp [segsData]

theorem segsData_append (a b : List Seg) :
    segsData (a ++ b) = segsData a ++ segsData b := by
  simp [segsData]

theorem segsToks_cons_tok (t : Tok) (rest : List Seg) :
    segsToks (.tok t :: rest) = t :: segsToks rest := by
  simp [segsToks]

theorem segsToks_cons_ws (cs : List Char) (rest : List Seg) :
    segsToks (.ws cs :: rest) = segsToks rest := by
  simp [segsToks]

theorem segsToks_append (a b : List Seg) :
    segsToks (a ++ b) = segsToks a ++ segsToks b := by
  simp [segsToks]

theorem SegsOK_append (a b : List Seg) (k : List Char)
    (ha : SegsOK a (segsData b ++ k)) (hb : SegsOK b k) : SegsOK (a ++ b) k := by
  induction a with
  | nil => simpa using hb
  | cons s rest ih =>
    obtain ⟨h1, h2⟩ := ha
    rw [List.cons_append]
    refine ⟨?_, ih h2⟩
    show segOK s (segsData (rest ++ b) ++ k)
    rw [segsData_append, List.append_assoc]
    exact h1

/-- The lexer context constraint: only a `Host` keyword at the head of
the segments constrains the previous character. -/
def prevOK (prev : Option Char) : List Seg → Prop
  | .tok t :: _ => t.kind = .host → ∀ p, prev = some p → isWordChar p = false
  | _ => True

theorem prevOK_of_space (prev : Option Char)
    (h : ∀ p, prev = some p → pyIsSpace p = true) (segs : List Seg) :
    prevOK prev segs := by
  match segs with
  | [] => trivial
  | .ws _ :: _ => trivial
  | .tok t :: _ =>
    intro _ p hp
    exact space_not_word p (h p hp)

theorem prevOK_of_not_H (prev : Option Char) (rest : List Seg) (hok : SegsOK rest [])
    (hH : ¬((segsData rest).head? = some 'H')) : prevOK prev rest := by
  match rest with
  | [] => trivial
  | .ws _ :: _ => trivial
  | .tok u :: rs =>
    intro hkind p _
    exfalso
    obtain ⟨h1, _⟩ := hok
    obtain ⟨uk, utxt⟩ := u
    simp only at hkind
    subst hkind
    obtain ⟨htxt, _⟩ := h1
    simp only at htxt
    subst htxt
    apply hH
    rw [segsData_cons]
    rfl

end SshManager

namespace SshManager

set_option maxRecDepth 40000

/-- Lexing a well-formed segment list yields exactly its tokens. -/
theorem lexSegs (segs : List Seg) :
    SegsOK segs [] → ∀ prev, prevOK prev segs →
      lexFrom prev (segsData segs) = .ok (segsToks segs) := by
  induction segs with
  | nil =>
    intro _ prev _
    rfl
  | cons s rest ih =>
    intro hok prev hprev
    obtain ⟨h1, h2⟩ := hok
    rw [List.append_nil] at h1
    match s with
    | .ws cs =>
      obtain ⟨hne, hsp, hnext⟩ := h1
      rw [segsData_cons, segsToks_cons_ws]
      show lexFrom prev (cs ++ segsData rest) = _
      rw [lexFrom_ws cs prev (segsData rest) hne hsp hnext]
      apply ih h2
      apply prevOK_of_space
      intro p hp
      apply hsp
      have : p ∈ cs.reverse := by
        apply List.mem_of_mem_head?
        rw [List.head?_reverse, hp]
        rfl
      exact List.mem_reverse.mp this
    | .tok t =>
      obtain ⟨kind, txt⟩ := t
      match kind with
      | .comment =>
        obtain ⟨⟨body, hbd, hbody⟩, hnext⟩ := h1
        rw [segsData_cons, segsToks_cons_tok]
        show lexFrom prev (txt.data ++ segsData rest) = _
        rw [hbd]
        rw [lexFrom_comment body prev (segsData rest) (segsToks rest)
          (fun c hc => eq_false (hbody c hc))
          hnext
          (ih h2 ('#' :: body).getLast? (prevOK_of_not_H _ rest h2 (by
            intro hcon
            have := hnext 'H' hcon
            exact absurd this (by decide))))]
        have : String.mk ('#' :: body) = txt := by
          rw [← hbd]
        rw [this]
      | .host =>
        obtain ⟨htxt, hnext⟩ := h1
        simp only at htxt
        subst htxt
        rw [segsData_cons, segsToks_cons_tok]
        show lexFrom prev ("Host".data ++ segsData rest) = _
        rw [lexFrom_host prev (segsData rest) (segsToks rest)
          (fun p hp => hprev rfl p hp)
          hnext
          (ih h2 (some 't') (prevOK_of_not_H _ rest h2 (by
            intro hcon
            have := hnext 'H' hcon
            exact absurd this (by decide))))]
      | .item =>
        obtain ⟨hclean, hnext⟩ := h1
        rw [segsData_cons, segsToks_cons_tok]
        show lexFrom prev (txt.data ++ segsData rest) = _
        rw [lexFrom_item txt.data prev (segsData rest) (segsToks rest)
          hclean
          hnext
          (ih h2 txt.data.getLast? (prevOK_of_not_H _ rest h2 (by
            intro hcon
            have := hnext 'H' hcon
            exact absurd this (by decide))))]

end SshManager

namespace SshManager

set_option maxRecDepth 40000

/-! ## Segments of one rendered entry -/

/-- Segments of one `key value` directive line (the newline and tab
belong to the run before the key). -/
def kvSegs (k v : String) : List Seg :=
  [.ws ['\n', '\t'], .tok ⟨.item, k⟩, .ws [' '], .tok ⟨.item, v⟩]

/-- Segments of one rendered `# comment` line. -/
def cmSegs (c : String) : List Seg :=
  [.ws ['\n', '\t'], .tok ⟨.comment, "# " ++ c⟩]

/-- Segments of one rendered extra directive. -/
def exSegs (x : SSHExtraConfig) : List Seg :=
  (match x.comment with | none => [] | some c => cmSegs c) ++
  kvSegs (x.key.getD "") (x.value.getD "")

/-- Segments of the rendered endpoint directives. -/
def epSegs (hn : Option String) (pt : Option Int) : List Seg :=
  (match hn with | none => [] | some h => kvSegs "HostName" h) ++
  (match pt with | none => [] | some p => kvSegs "Port" (pyIntToString p))

/-- Segments of the rendered authentication directives. -/
def auSegs (us idf : Option String) : List Seg :=
  (match us with | none => [] | some u => kvSegs "User" u) ++
  (match idf with | none => [] | some f => kvSegs "IdentityFile" f)

/-- Segments of one entry's directive lines. -/
def dirSegs (cfg : SSHHostConfig) : List Seg :=
  epSegs cfg.endpoint.hostname cfg.endpoint.port ++
  (auSegs cfg.authentication.user cfg.authentication.identity_file ++
   cfg.extra_config.flatMap exSegs)

/-- Segments of one entry's whole rstripped block. -/
def entrySegs (cfg : SSHHostConfig) : List Seg :=
  .tok ⟨.host, "Host"⟩ :: .ws [' '] :: .tok ⟨.item, cfg.name.getD ""⟩ :: dirSegs cfg

/-- Segments of the whole rendered document. -/
def docSegs (l : List SSHHostConfig) : List Seg :=
  .tok ⟨.comment, sentinel⟩ ::
    (l.flatMap (fun c => .ws ['\n', '\n'] :: entrySegs c) ++ [.ws ['\n']])

/-! ## Their token streams -/

theorem segsToks_exSegs (x : SSHExtraConfig) :
    segsToks (exSegs x) =
      (match x.comment with | none => [] | some c => [⟨.comment, "# " ++ c⟩]) ++
      [⟨.item, x.key.getD ""⟩, ⟨.item, x.value.getD ""⟩] := by
  obtain ⟨xk, xv, xc⟩ := x
  cases xc <;> rfl

theorem segsToks_flat_exSegs (xs : List SSHExtraConfig) :
    segsToks (xs.flatMap exSegs) = exToks xs := by
  induction xs with
  | nil => rfl
  | cons x xs ih =>
    rw [List.flatMap_cons, segsToks_append, segsToks_exSegs, ih]
    show _ = exToks (x :: xs)
    rw [show exToks (x :: xs) =
      ((match x.comment with | none => [] | some c => [⟨.comment, "# " ++ c⟩]) ++
        [⟨.item, x.key.getD ""⟩, ⟨.item, x.value.getD ""⟩]) ++ exToks xs from by
      obtain ⟨xk, xv, xc⟩ := x
      cases xc <;> rfl]

theorem segsToks_epSegs (hn : Option String) (pt : Option Int) :
    segsToks (epSegs hn pt) = epToks hn pt := by
  cases hn <;> cases pt <;> rfl

theorem segsToks_auSegs (us idf : Option String) :
    segsToks (auSegs us idf) = auToks us idf := by
  cases us <;> cases idf <;> rfl

theorem segsToks_entrySegs (cfg : SSHHostConfig) :
    segsToks (entrySegs cfg) = entryToks cfg := by
  show segsToks (.tok ⟨.host, "Host"⟩ :: .ws [' '] :: .tok ⟨.item, cfg.name.getD ""⟩ ::
    dirSegs cfg) = _
  rw [segsToks_cons_tok, segsToks_cons_ws, segsToks_cons_tok]
  rw [show dirSegs cfg = epSegs cfg.endpoint.hostname cfg.endpoint.port ++
    (auSegs cfg.authentication.user cfg.authentication.identity_file ++
     cfg.extra_config.flatMap exSegs) from rfl]
  rw [segsToks_append, segsToks_append]
  rw [segsToks_epSegs, segsToks_auSegs, segsToks_flat_exSegs]
  show _ = ⟨.host, "Host"⟩ :: ⟨.item, cfg.name.getD ""⟩ :: entryDirToks cfg
  rw [show entryDirToks cfg = epToks cfg.endpoint.hostname cfg.endpoint.port ++
    auToks cfg.authentication.user cfg.authentication.identity_file ++
    exToks cfg.extra_config from rfl]
  rw [List.append_assoc]

theorem segsToks_docSegs (l : List SSHHostConfig) :
    segsToks (docSegs l) = docToks l := by
  show segsToks (.tok ⟨.comment, sentinel⟩ ::
    (l.flatMap (fun c => .ws ['\n', '\n'] :: entrySegs c) ++ [.ws ['\n']])) = _
  rw [segsToks_cons_tok, segsToks_append]
  rw [show segsToks [Seg.ws ['\n']] = [] from rfl, List.append_nil]
  show _ = ⟨.comment, sentinel⟩ :: l.flatMap entryToks
  congr 1
  induction l with
  | nil => rfl
  | cons c l ih =>
    rw [List.flatMap_cons, List.flatMap_cons, segsToks_append, ih]
    congr 1
    rw [show segsToks (Seg.ws ['\n', '\n'] :: entrySegs c) = segsToks (entrySegs c)
      from segsToks_cons_ws _ _]
    exact segsToks_entrySegs c

end SshManager

namespace SshManager

set_option maxRecDepth 40000

/-! ## Well-formedness of the rendered segments -/

theorem head_mem_append (A B : List Char) (c : Char)
    (hc : (A ++ B).head? = some c) (hA : A ≠ []) : c ∈ A := by
  match A with
  | a :: as =>
    simp only [List.cons_append, List.head?_cons, Option.some.injEq] at hc
    rw [← hc]
    simp

theorem cleanTokL_ne_nil (l : List Char) (h : cleanTokL l = true) : l ≠ [] := by
  simp only [cleanTokL, Bool.and_eq_true] at h
  have := h.1.1.1
  intro hcon
  subst hcon
  exact absurd this (by decide)

theorem cleanTokL_not_space (l : List Char) (h : cleanTokL l = true) :
    ∀ c ∈ l, pyIsSpace c = false := by
  simp only [cleanTokL, Bool.and_eq_true, List.all_eq_true] at h
  intro c hc
  have := h.1.1.2 c hc
  simpa using this

/-- Segment lists that are empty or whose text starts with a newline. -/
def nlSegs (segs : List Seg) : Prop :=
  segs = [] ∨ (segsData segs).head? = some '\n'

theorem nlSegs_append (a b : List Seg) (ha : nlSegs a) (hb : nlSegs b) :
    nlSegs (a ++ b) := by
  rcases ha with ha | ha
  · subst ha
    simpa using hb
  · right
    rw [segsData_append]
    have hne : segsData a ≠ [] := by
      intro hcon
      rw [hcon] at ha
      cases ha
    match hd : segsData a with
    | [] => exact absurd hd hne
    | c :: cs =>
      rw [hd] at ha
      simp only [List.cons_append, List.head?_cons]
      simpa using ha

theorem nlSegs_kv (k v : String) : nlSegs (kvSegs k v) := Or.inr rfl

theorem nlSegs_cm (c : String) : nlSegs (cmSegs c) := Or.inr rfl

theorem nlSegs_exSegs (x : SSHExtraConfig) : nlSegs (exSegs x) := by
  obtain ⟨xk, xv, xc⟩ := x
  cases xc
  · exact Or.inr rfl
  · exact Or.inr rfl

theorem nlSegs_flat_exSegs (xs : List SSHExtraConfig) :
    nlSegs (xs.flatMap exSegs) := by
  induction xs with
  | nil => exact Or.inl rfl
  | cons x xs ih => exact nlSegs_append _ _ (nlSegs_exSegs x) ih

theorem nlSegs_opt_str (o : Option String) (key : String) :
    nlSegs (match o with | none => [] | some h => kvSegs key h) := by
  cases o
  · exact Or.inl rfl
  · exact Or.inr rfl

theorem nlSegs_opt_int (o : Option Int) (key : String) :
    nlSegs (match o with | none => [] | some p => kvSegs key (pyIntToString p)) := by
  cases o
  · exact Or.inl rfl
  · exact Or.inr rfl

theorem nlSegs_dirSegs (cfg : SSHHostConfig) : nlSegs (dirSegs cfg) := by
  refine nlSegs_append _ _ ?_ (nlSegs_append _ _ ?_ (nlSegs_flat_exSegs _))
  · exact nlSegs_append _ _ (nlSegs_opt_str _ "HostName") (nlSegs_opt_int _ "Port")
  · exact nlSegs_append _ _ (nlSegs_opt_str _ "User") (nlSegs_opt_str _ "IdentityFile")

/-- A continuation whose first character, if any, is a newline. -/
def nlKont (d : List Char) : Prop := ∀ c, d.head? = some c → c = '\n'

theorem nlKont_of_nlSegs (segs : List Seg) (k : List Char) (h : nlSegs segs)
    (hk : nlKont k) : nlKont (segsData segs ++ k) := by
  rcases h with h | h
  · subst h
    simpa using hk
  · intro c hc
    have hne : segsData segs ≠ [] := by
      intro hcon
      rw [hcon] at h
      cases h
    have := head_mem_append _ _ c hc hne
    match hd : segsData segs with
    | [] => exact absurd hd hne
    | x :: xs =>
      rw [hd] at hc h
      simp only [List.cons_append, List.head?_cons, Option.some.injEq] at hc h
      rw [← hc, h]

theorem nlKont_space (d : List Char) (h : nlKont d) :
    ∀ c, d.head? = some c → pyIsSpace c = true := by
  intro c hc
  rw [h c hc]
  decide

/-- A whitespace run followed by one clean item token. -/
theorem pairOK (wsc : List Char) (t : String) (kont : List Char)
    (h1 : wsc ≠ []) (h2 : ∀ c ∈ wsc, pyIsSpace c = true)
    (ht : cleanTok t = true)
    (hkont : ∀ c, kont.head? = some c → pyIsSpace c = true) :
    SegsOK [.ws wsc, .tok ⟨.item, t⟩] kont := by
  refine ⟨⟨h1, h2, ?_⟩, ⟨ht, ?_⟩, trivial⟩
  · intro c hc
    rw [show segsData [Seg.tok ⟨.item, t⟩] = t.data ++ [] from rfl,
      List.append_nil] at hc
    exact cleanTokL_not_space t.data ht c
      (head_mem_append _ _ c hc (cleanTokL_ne_nil t.data ht))
  · intro c hc
    rw [show segsData ([] : List Seg) = [] from rfl, List.nil_append] at hc
    exact hkont c hc

theorem kvSegs_ok (k v : String) (kont : List Char)
    (hk : cleanTok k = true) (hv : cleanTok v = true)
    (hkont : ∀ c, kont.head? = some c → pyIsSpace c = true) :
    SegsOK (kvSegs k v) kont := by
  rw [show kvSegs k v = [Seg.ws ['\n', '\t'], .tok ⟨.item, k⟩] ++
    [Seg.ws [' '], .tok ⟨.item, v⟩] from rfl]
  apply SegsOK_append
  · apply pairOK _ _ _ (by simp) (by decide) hk
    intro c hc
    rw [show segsData [Seg.ws [' '], Seg.tok ⟨.item, v⟩] = [' '] ++ (v.data ++ []) from rfl]
      at hc
    simp only [List.cons_append, List.head?_cons, Option.some.injEq] at hc
    rw [← hc]
    decide
  · exact pairOK _ _ _ (by simp) (by decide) hv hkont

theorem cmSegs_ok (c : String) (kont : List Char)
    (hc : cleanComment c = true) (hkont : nlKont kont) :
    SegsOK (cmSegs c) kont := by
  simp only [cleanComment, Bool.and_eq_true, Bool.not_eq_true',
    decide_eq_true_eq] at hc
  obtain ⟨⟨_, _⟩, hnl⟩ := hc
  refine ⟨⟨by simp, by decide, ?_⟩, ⟨⟨' ' :: c.data, ?_, ?_⟩, ?_⟩, trivial⟩
  · intro u hu
    rw [show segsData [Seg.tok ⟨.comment, "# " ++ c⟩] = ("# " ++ c).data ++ [] from rfl,
      List.append_nil] at hu
    rw [show ("# " ++ c).data = '#' :: ' ' :: c.data from by
      rw [String.data_append]; rfl] at hu
    simp only [List.cons_append, List.head?_cons, Option.some.injEq] at hu
    rw [← hu]
    decide
  · rw [String.data_append]
    rfl
  · intro u hu
    rcases List.mem_cons.mp hu with h | h
    · subst h; decide
    · intro hcon
      subst hcon
      rw [List.contains_eq_any_beq] at hnl
      simp only [List.any_eq_false] at hnl
      have := hnl '\n' h
      simp at this
  · intro u hu
    rw [show segsData ([] : List Seg) = [] from rfl, List.nil_append] at hu
    exact hkont u hu

end SshManager

namespace SshManager

set_option maxRecDepth 40000

theorem nlSegs_epSegs (hn : Option String) (pt : Option Int) : nlSegs (epSegs hn pt) :=
  nlSegs_append _ _ (nlSegs_opt_str hn "HostName") (nlSegs_opt_int pt "Port")

theorem nlSegs_auSegs (us idf : Option String) : nlSegs (auSegs us idf) :=
  nlSegs_append _ _ (nlSegs_opt_str us "User") (nlSegs_opt_str idf "IdentityFile")

theorem exSegs_ok (x : SSHExtraConfig) (kont : List Char) (hx : cleanExtra x = true)
    (hkont : nlKont kont) : SegsOK (exSegs x) kont := by
  obtain ⟨xk, xv, xc⟩ := x
  simp only [cleanExtra, Bool.and_eq_true] at hx
  obtain ⟨⟨hkey, hval⟩, hcm⟩ := hx
  cases xk with
  | none => exact absurd hkey (by decide)
  | some k =>
    cases xv with
    | none => exact absurd hval (by decide)
    | some v =>
      simp only [Bool.and_eq_true] at hkey
      have hk : cleanTok k = true := hkey.1.1.1.1
      cases xc with
      | none =>
        show SegsOK ([] ++ kvSegs k v) kont
        rw [List.nil_append]
        exact kvSegs_ok k v kont hk hval (nlKont_space kont hkont)
      | some c =>
        show SegsOK (cmSegs c ++ kvSegs k v) kont
        apply SegsOK_append
        · exact cmSegs_ok c _ hcm (nlKont_of_nlSegs _ kont (nlSegs_kv _ _) hkont)
        · exact kvSegs_ok k v kont hk hval (nlKont_space kont hkont)

/-- The optional `key value` segments of a string-valued field. -/
def optStrSegs (key : String) (o : Option String) : List Seg :=
  match o with | none => [] | some h => kvSegs key h

/-- The optional `key value` segments of an integer-valued field. -/
def optIntSegs (key : String) (o : Option Int) : List Seg :=
  match o with | none => [] | some p => kvSegs key (pyIntToString p)

theorem optKv_str_ok (o : Option String) (key : String) (hkey : cleanTok key = true)
    (ho : ∀ s, o = some s → cleanTok s = true) (kont : List Char) (hkont : nlKont kont) :
    SegsOK (optStrSegs key o) kont := by
  cases o with
  | none => trivial
  | some h =>
    show SegsOK (kvSegs key h) kont
    exact kvSegs_ok key h kont hkey (ho h rfl) (nlKont_space kont hkont)

theorem optKv_int_ok (o : Option Int) (key : String) (hkey : cleanTok key = true)
    (kont : List Char) (hkont : nlKont kont) :
    SegsOK (optIntSegs key o) kont := by
  cases o with
  | none => trivial
  | some p =>
    show SegsOK (kvSegs key (pyIntToString p)) kont
    exact kvSegs_ok key _ kont hkey (cleanTok_intToString p) (nlKont_space kont hkont)

theorem flat_exSegs_ok (xs : List SSHExtraConfig) (kont : List Char)
    (hxs : ∀ x ∈ xs, cleanExtra x = true) (hkont : nlKont kont) :
    SegsOK (xs.flatMap exSegs) kont := by
  induction xs with
  | nil => trivial
  | cons x xs ih =>
    rw [List.flatMap_cons]
    apply SegsOK_append
    · exact exSegs_ok x _ (hxs x (by simp))
        (nlKont_of_nlSegs _ _ (nlSegs_flat_exSegs xs) hkont)
    · exact ih (fun u hu => hxs u (by simp [hu]))

theorem cleanCfg_parts (cfg : SSHHostConfig) (h : cleanCfg cfg = true) :
    cleanTok (cfg.name.getD "") = true ∧
    (∀ s, cfg.endpoint.hostname = some s → cleanTok s = true) ∧
    (∀ s, cfg.authentication.user = some s → cleanTok s = true) ∧
    (∀ s, cfg.authentication.identity_file = some s → cleanTok s = true) ∧
    (∀ x ∈ cfg.extra_config, cleanExtra x = true) := by
  obtain ⟨nopt, cm, e, a, xs⟩ := cfg
  obtain ⟨eh, epv, ec⟩ := e
  obtain ⟨au, ao, af, ac⟩ := a
  simp only [cleanCfg, cleanEndpoint, cleanAuth, Bool.and_eq_true, List.all_eq_true] at h
  obtain ⟨⟨⟨⟨hname, _⟩, ⟨hhn, _⟩⟩, ⟨⟨⟨_, hus⟩, hidf⟩, _⟩⟩, hxs⟩ := h
  refine ⟨?_, ?_, ?_, ?_, hxs⟩
  · cases nopt with
    | none => exact absurd hname (by decide)
    | some n => exact hname
  · intro s hs
    simp only at hs
    subst hs
    exact hhn
  · intro s hs
    simp only at hs
    subst hs
    exact hus
  · intro s hs
    simp only at hs
    subst hs
    exact hidf

theorem dirSegs_ok (cfg : SSHHostConfig) (kont : List Char) (hclean : cleanCfg cfg = true)
    (hkont : nlKont kont) : SegsOK (dirSegs cfg) kont := by
  obtain ⟨_, hhn, hus, hidf, hxs⟩ := cleanCfg_parts cfg hclean
  have hkflat : nlKont (segsData (cfg.extra_config.flatMap exSegs) ++ kont) :=
    nlKont_of_nlSegs _ _ (nlSegs_flat_exSegs _) hkont
  have hkau : nlKont (segsData (auSegs cfg.authentication.user
      cfg.authentication.identity_file ++ cfg.extra_config.flatMap exSegs) ++ kont) :=
    nlKont_of_nlSegs _ _
      (nlSegs_append _ _ (nlSegs_auSegs _ _) (nlSegs_flat_exSegs _)) hkont
  rw [dirSegs]
  apply SegsOK_append
  · show SegsOK (optStrSegs "HostName" cfg.endpoint.hostname ++
      optIntSegs "Port" cfg.endpoint.port) _
    apply SegsOK_append
    · apply optKv_str_ok _ "HostName" (by decide) hhn
      exact nlKont_of_nlSegs _ _ (nlSegs_opt_int cfg.endpoint.port "Port") hkau
    · exact optKv_int_ok _ "Port" (by decide) _ hkau
  · apply SegsOK_append
    · show SegsOK (optStrSegs "User" cfg.authentication.user ++
        optStrSegs "IdentityFile" cfg.authentication.identity_file) _
      apply SegsOK_append
      · apply optKv_str_ok _ "User" (by decide) hus
        exact nlKont_of_nlSegs _ _
          (nlSegs_opt_str cfg.authentication.identity_file "IdentityFile") hkflat
      · exact optKv_str_ok _ "IdentityFile" (by decide) hidf _ hkflat
    · exact flat_exSegs_ok _ kont hxs hkont

theorem entrySegs_ok (cfg : SSHHostConfig) (kont : List Char) (hclean : cleanCfg cfg = true)
    (hkont : nlKont kont) : SegsOK (entrySegs cfg) kont := by
  obtain ⟨hnm, _, _, _, _⟩ := cleanCfg_parts cfg hclean
  rw [entrySegs]
  refine ⟨⟨rfl, ?_⟩, ⟨by simp, by decide, ?_⟩, ⟨hnm, ?_⟩, dirSegs_ok cfg kont hclean hkont⟩
  · intro c hc
    simp only [segsData_cons, segData, List.cons_append, List.nil_append,
      List.head?_cons, Option.some.injEq] at hc
    rw [← hc]
    decide
  · intro c hc
    rw [segsData_cons, List.append_assoc] at hc
    rw [show segData (Seg.tok ⟨.item, cfg.name.getD ""⟩) = (cfg.name.getD "").data
      from rfl] at hc
    exact cleanTokL_not_space _ hnm c
      (head_mem_append _ _ c hc (cleanTokL_ne_nil _ hnm))
  · exact nlKont_space _ (nlKont_of_nlSegs _ _ (nlSegs_dirSegs cfg) hkont)

end SshManager

namespace SshManager

set_option maxRecDepth 40000

theorem prevOK_none (segs : List Seg) : prevOK none segs := by
  match segs with
  | [] => trivial
  | .ws _ :: _ => trivial
  | .tok _ :: _ =>
    intro _ p hp
    cases hp

theorem nlSegs_entryGroup (c : SSHHostConfig) :
    nlSegs (.ws ['\n', '\n'] :: entrySegs c) := Or.inr rfl

theorem nlSegs_flatGroups (l : List SSHHostConfig) :
    nlSegs (l.flatMap (fun c => .ws ['\n', '\n'] :: entrySegs c)) := by
  induction l with
  | nil => exact Or.inl rfl
  | cons c l ih => exact nlSegs_append _ _ (nlSegs_entryGroup c) ih

theorem flatGroups_ok (l : List SSHHostConfig) (kont : List Char)
    (hclean : ∀ cfg ∈ l, cleanCfg cfg = true) (hkont : nlKont kont) :
    SegsOK (l.flatMap (fun c => .ws ['\n', '\n'] :: entrySegs c)) kont := by
  induction l with
  | nil => trivial
  | cons c l ih =>
    rw [List.flatMap_cons]
    apply SegsOK_append
    · have hk : nlKont (segsData (l.flatMap (fun c => .ws ['\n', '\n'] :: entrySegs c)) ++
          kont) := nlKont_of_nlSegs _ _ (nlSegs_flatGroups l) hkont
      refine ⟨⟨by simp, by decide, ?_⟩, entrySegs_ok c _ (hclean c (by simp)) hk⟩
      intro u hu
      have hH : (segsData (entrySegs c) ++
          (segsData (l.flatMap (fun c => .ws ['\n', '\n'] :: entrySegs c)) ++ kont)).head? =
          some 'H' := rfl
      rw [hH] at hu
      simp only [Option.some.injEq] at hu
      rw [← hu]
      decide
    · exact ih (fun u hu => hclean u (by simp [hu]))

theorem docSegs_ok (l : List SSHHostConfig) (hclean : ∀ cfg ∈ l, cleanCfg cfg = true) :
    SegsOK (docSegs l) [] := by
  rw [docSegs]
  refine ⟨?_, ?_⟩
  · refine ⟨⟨" This file is managed by ssh_manager".data, by decide, by decide⟩, ?_⟩
    intro c hc
    rw [List.append_nil] at hc
    have hnl : nlSegs (l.flatMap (fun c => .ws ['\n', '\n'] :: entrySegs c) ++
        [.ws ['\n']]) :=
      nlSegs_append _ _ (nlSegs_flatGroups l) (Or.inr rfl)
    rcases hnl with h | h
    · exact absurd h (by simp)
    · rw [h] at hc
      simp only [Option.some.injEq] at hc
      rw [← hc]
  · apply SegsOK_append
    · apply flatGroups_ok l _ hclean
      intro c hc
      have : (segsData [Seg.ws ['\n']] ++ ([] : List Char)).head? = some '\n' := rfl
      rw [this] at hc
      simp only [Option.some.injEq] at hc
      rw [← hc]
    · refine ⟨⟨by simp, by decide, ?_⟩, trivial⟩
      intro c hc
      rw [show segsData ([] : List Seg) ++ ([] : List Char) = [] from rfl] at hc
      cases hc

/-- Lexing the rendered document's characters yields exactly the token
stream the parser reconstruction consumes. -/
theorem lex_docSegs (l : List SSHHostConfig) (hclean : ∀ cfg ∈ l, cleanCfg cfg = true) :
    lexFrom none (segsData (docSegs l)) = .ok (docToks l) := by
  rw [← segsToks_docSegs]
  exact lexSegs _ (docSegs_ok l hclean) none (prevOK_none _)

end SshManager

namespace SshManager

set_option maxRecDepth 40000

/-! ## Rendered-text utilities -/

theorem string_ext (a b : String) (h : a.data = b.data) : a = b :=
  congrArg String.mk h

theorem head?_append_left (A B : List Char) (hA : A ≠ []) :
    (A ++ B).head? = A.head? := by
  match A with
  | a :: as => rfl

theorem getLast?_append_right (A B : List Char) (hB : B ≠ []) :
    (A ++ B).getLast? = B.getLast? := by
  rw [← List.head?_reverse, ← List.head?_reverse B, List.reverse_append]
  exact head?_append_left _ _ (by simpa using hB)

theorem cleanTok_ne_empty (s : String) (h : cleanTok s = true) : ¬(s = "") := by
  intro hcon
  subst hcon
  exact absurd h (by decide)

theorem cleanTok_data_ne_nil (s : String) (h : cleanTok s = true) : s.data ≠ [] :=
  cleanTokL_ne_nil s.data h

theorem cleanTok_pyStrip (s : String) (h : cleanTok s = true) : pyStrip s = s := by
  apply pyStrip_no_space
  exact cleanTokL_not_space s.data h

theorem cleanTok_last_not_space (s : String) (h : cleanTok s = true) :
    ∀ c, s.data.getLast? = some c → pyIsSpace c = false := by
  intro c hc
  apply cleanTokL_not_space s.data h
  have := List.head?_reverse s.data
  rw [← this] at hc
  have hmem := List.mem_of_mem_head? (by rw [hc]; rfl : c ∈ s.data.reverse.head?)
  exact List.mem_reverse.mp hmem

theorem cleanComment_facts (c : String) (h : cleanComment c = true) :
    ¬(c = "") ∧ pyStrip c = c ∧ c.data ≠ [] ∧
    (∀ u, c.data.getLast? = some u → pyIsSpace u = false) := by
  simp only [cleanComment, Bool.and_eq_true, Bool.not_eq_true',
    decide_eq_true_eq, decide_eq_false_iff_not] at h
  obtain ⟨⟨hne, hstrip⟩, _⟩ := h
  have hdata : c.data ≠ [] := by
    intro hcon
    apply hne
    apply string_ext
    rw [hcon]
  have hstripd : pyStripData c.data = c.data := by
    have := congrArg String.data hstrip
    exact this
  exact ⟨hne, hstrip, hdata, stripSelf_last c.data hstripd⟩

theorem isNoneOrEmpty_false_of_clean (s : String) (h : cleanTok s = true) :
    isNoneOrEmpty (some s) = false := by
  rw [isNoneOrEmpty]
  simp only [decide_eq_false_iff_not]
  intro hcon
  rw [cleanTok_pyStrip s h] at hcon
  exact cleanTok_ne_empty s h hcon

theorem isNoneOrEmpty_false_of_comment (s : String) (h : cleanComment s = true) :
    isNoneOrEmpty (some s) = false := by
  obtain ⟨hne, hstrip, _, _⟩ := cleanComment_facts s h
  rw [isNoneOrEmpty]
  simp only [decide_eq_false_iff_not]
  intro hcon
  rw [hstrip] at hcon
  exact hne hcon

theorem genCommentStr_none_or_empty (i : Nat) (c : Option String)
    (h : c = none ∨ c = some "") : genCommentStr i c = "" := by
  rcases h with h | h <;> subst h
  · rw [genCommentStr, if_pos (by decide)]
  · rw [genCommentStr, if_pos (by decide)]

/-- Shift the line newlines from line ends to line starts. -/
theorem line_shift (L : List (List Char)) :
    '\n' :: L.flatMap (fun l => '\t' :: l ++ ['\n']) =
      L.flatMap (fun l => '\n' :: '\t' :: l) ++ ['\n'] := by
  induction L with
  | nil => rfl
  | cons l L ih =>
    simp only [List.flatMap_cons, List.cons_append, List.append_assoc, List.nil_append]
    rw [← ih]
    simp [List.cons_append, List.append_assoc]

theorem dropWhile_eq_self_of_head (p : Char → Bool) (Z : List Char)
    (h : ∀ c, Z.head? = some c → p c = false) : Z.dropWhile p = Z := by
  match Z with
  | [] => rfl
  | c :: rest => rw [List.dropWhile_cons_of_neg (by simp [h c rfl])]

theorem pyRstripData_append_nl (Y : List Char)
    (hY : ∀ c, Y.getLast? = some c → pyIsSpace c = false) :
    pyRstripData (Y ++ ['\n']) = Y := by
  unfold pyRstripData
  rw [List.reverse_append]
  show (('\n' :: Y.reverse).dropWhile pyIsSpace).reverse = Y
  rw [List.dropWhile_cons_of_pos (by decide)]
  rw [dropWhile_eq_self_of_head pyIsSpace Y.reverse (by
    intro c hc
    rw [List.head?_reverse] at hc
    exact hY c hc)]
  exact List.reverse_reverse Y

end SshManager

namespace SshManager

set_option maxRecDepth 40000

/-! ## Line lists of one rendered entry -/

/-- The optional directive line of a string-valued field. -/
def optStrLine (key : String) (o : Option String) : List (List Char) :=
  match o with | none => [] | some h => [(key ++ " " ++ h).data]

/-- The optional directive line of an integer-valued field. -/
def optIntLine (key : String) (o : Option Int) : List (List Char) :=
  match o with | none => [] | some p => [(key ++ " " ++ pyIntToString p).data]

/-- The rendered lines of one extra directive. -/
def exLines (x : SSHExtraConfig) : List (List Char) :=
  (match x.comment with | none => [] | some c => [("# " ++ c).data]) ++
  [((x.key.getD "") ++ " " ++ (x.value.getD "")).data]

/-- All directive lines of one entry, without indent or newline. -/
def dirLines (cfg : SSHHostConfig) : List (List Char) :=
  optStrLine "HostName" cfg.endpoint.hostname ++
  (optIntLine "Port" cfg.endpoint.port ++
   (optStrLine "User" cfg.authentication.user ++
    (optStrLine "IdentityFile" cfg.authentication.identity_file ++
     cfg.extra_config.flatMap exLines)))

theorem segsData_kvSegs (k v : String) :
    segsData (kvSegs k v) = '\n' :: '\t' :: (k ++ " " ++ v).data := by
  simp [kvSegs, segsData, segData, String.data_append,
    show (" " : String).data = [' '] from rfl]

theorem segsData_cmSegs (c : String) :
    segsData (cmSegs c) = '\n' :: '\t' :: ("# " ++ c).data := by
  simp [cmSegs, segsData, segData]

theorem segsData_optStrSegs (key : String) (o : Option String) :
    segsData (optStrSegs key o) =
      (optStrLine key o).flatMap (fun l => '\n' :: '\t' :: l) := by
  cases o with
  | none => rfl
  | some h =>
    show segsData (kvSegs key h) = _
    rw [segsData_kvSegs]
    simp [optStrLine]

theorem segsData_optIntSegs (key : String) (o : Option Int) :
    segsData (optIntSegs key o) =
      (optIntLine key o).flatMap (fun l => '\n' :: '\t' :: l) := by
  cases o with
  | none => rfl
  | some p =>
    show segsData (kvSegs key (pyIntToString p)) = _
    rw [segsData_kvSegs]
    simp [optIntLine]

theorem segsData_exSegs_lines (x : SSHExtraConfig) :
    segsData (exSegs x) = (exLines x).flatMap (fun l => '\n' :: '\t' :: l) := by
  obtain ⟨xk, xv, xc⟩ := x
  cases xc with
  | none =>
    show segsData ([] ++ kvSegs (xk.getD "") (xv.getD "")) = _
    rw [List.nil_append, segsData_kvSegs]
    simp [exLines]
  | some c =>
    show segsData (cmSegs c ++ kvSegs (xk.getD "") (xv.getD "")) = _
    rw [segsData_append, segsData_cmSegs, segsData_kvSegs]
    simp [exLines]

theorem segsData_flat_exSegs (xs : List SSHExtraConfig) :
    segsData (xs.flatMap exSegs) =
      (xs.flatMap exLines).flatMap (fun l => '\n' :: '\t' :: l) := by
  induction xs with
  | nil => rfl
  | cons x xs ih =>
    rw [List.flatMap_cons, segsData_append, segsData_exSegs_lines, ih,
      List.flatMap_cons, List.flatMap_append]

theorem segsData_dirSegs (cfg : SSHHostConfig) :
    segsData (dirSegs cfg) = (dirLines cfg).flatMap (fun l => '\n' :: '\t' :: l) := by
  rw [dirSegs]
  rw [show epSegs cfg.endpoint.hostname cfg.endpoint.port =
    optStrSegs "HostName" cfg.endpoint.hostname ++
      optIntSegs "Port" cfg.endpoint.port from rfl]
  rw [show auSegs cfg.authentication.user cfg.authentication.identity_file =
    optStrSegs "User" cfg.authentication.user ++
      optStrSegs "IdentityFile" cfg.authentication.identity_file from rfl]
  rw [segsData_append, segsData_append, segsData_append, segsData_append]
  rw [segsData_optStrSegs, segsData_optIntSegs, segsData_optStrSegs,
    segsData_optStrSegs, segsData_flat_exSegs]
  rw [dirLines]
  simp [List.flatMap_append, List.append_assoc]

theorem segsData_entrySegs_lines (cfg : SSHHostConfig) (nm : String)
    (hnm : cfg.name = some nm) :
    segsData (entrySegs cfg) =
      ("Host " ++ nm).data ++ (dirLines cfg).flatMap (fun l => '\n' :: '\t' :: l) := by
  rw [entrySegs]
  rw [segsData_cons, segsData_cons, segsData_cons, segsData_dirSegs]
  rw [show segData (Seg.tok ⟨.host, "Host"⟩) = "Host".data from rfl]
  rw [show segData (Seg.ws [' ']) = [' '] from rfl]
  rw [show segData (Seg.tok ⟨.item, cfg.name.getD ""⟩) = (cfg.name.getD "").data from rfl]
  rw [hnm]
  rw [show (some nm).getD "" = nm from rfl]
  rw [show ("Host " ++ nm).data = "Host".data ++ ([' '] ++ nm.data) from by
    rw [String.data_append]
    rfl]
  simp [List.append_assoc]

end SshManager

namespace SshManager

set_option maxRecDepth 40000

theorem cleanCfg_comments (cfg : SSHHostConfig) (h : cleanCfg cfg = true) :
    cfg.comment = none ∧
    (cfg.endpoint.comment = none ∨ cfg.endpoint.comment = some "") ∧
    (cfg.authentication.comment = none ∨ cfg.authentication.comment = some "") := by
  obtain ⟨nopt, cm, e, a, xs⟩ := cfg
  obtain ⟨eh, epv, ec⟩ := e
  obtain ⟨au, ao, af, ac⟩ := a
  simp only [cleanCfg, cleanEndpoint, cleanAuth, Bool.and_eq_true, List.all_eq_true,
    decide_eq_true_eq] at h
  obtain ⟨⟨⟨⟨_, hcm⟩, ⟨_, hecif⟩⟩, ⟨⟨⟨_, _⟩, _⟩, hacif⟩⟩, _⟩ := h
  refine ⟨hcm, ?_, ?_⟩
  · by_cases hcase : eh = none ∧ epv = none
    · rw [if_pos hcase] at hecif
      exact Or.inl (of_decide_eq_true hecif)
    · rw [if_neg hcase] at hecif
      exact Or.inr (of_decide_eq_true hecif)
  · by_cases hcase : au = none ∧ af = none
    · rw [if_pos hcase] at hacif
      exact Or.inl (of_decide_eq_true hacif)
    · rw [if_neg hcase] at hacif
      exact Or.inr (of_decide_eq_true hacif)

theorem cleanCfg_name_some (cfg : SSHHostConfig) (h : cleanCfg cfg = true) :
    ∃ nm, cfg.name = some nm ∧ cleanTok nm = true := by
  have hp := (cleanCfg_parts cfg h).1
  match hn : cfg.name with
  | some n =>
    refine ⟨n, rfl, ?_⟩
    rw [hn] at hp
    exact hp
  | none =>
    have h2 := h
    simp only [cleanCfg, hn, Bool.and_eq_true] at h2
    exact absurd h2.1.1.1.1 (by decide)

theorem ep_toDirString_data (e : SSHEndpoint)
    (hc : e.comment = none ∨ e.comment = some "")
    (hh : ∀ s, e.hostname = some s → cleanTok s = true) :
    (SSHEndpoint.toDirString e 1).data =
      (optStrLine "HostName" e.hostname ++ optIntLine "Port" e.port).flatMap
        (fun l => '\t' :: l ++ ['\n']) := by
  obtain ⟨eh, epv, ec⟩ := e
  simp only at hc hh
  have hgc : genCommentStr 1 ec = "" := genCommentStr_none_or_empty 1 ec hc
  cases eh with
  | none =>
    cases epv with
    | none =>
      show (genCommentStr 1 ec ++ (if isNoneOrEmpty none then "" else
        withIndent 1 ("HostName " ++ (none : Option String).getD "" ++ "\n")) ++ "").data = _
      rw [hgc, if_pos (by decide)]
      rfl
    | some p =>
      show (genCommentStr 1 ec ++ (if isNoneOrEmpty none then "" else
        withIndent 1 ("HostName " ++ (none : Option String).getD "" ++ "\n")) ++
        withIndent 1 ("Port " ++ pyIntToString p ++ "\n")).data = _
      rw [hgc, if_pos (by decide)]
      simp [withIndent, String.data_append, optStrLine, optIntLine,
        show ("\n" : String).data = ['\n'] from rfl,
        show ("" : String).data = [] from rfl]
  | some h =>
    have hno : isNoneOrEmpty (some h) = false := isNoneOrEmpty_false_of_clean h (hh h rfl)
    cases epv with
    | none =>
      show (genCommentStr 1 ec ++ (if isNoneOrEmpty (some h) then "" else
        withIndent 1 ("HostName " ++ (some h).getD "" ++ "\n")) ++ "").data = _
      rw [hgc, hno]
      simp [withIndent, String.data_append, optStrLine, optIntLine,
        show ("\n" : String).data = ['\n'] from rfl,
        show ("" : String).data = [] from rfl]
    | some p =>
      show (genCommentStr 1 ec ++ (if isNoneOrEmpty (some h) then "" else
        withIndent 1 ("HostName " ++ (some h).getD "" ++ "\n")) ++
        withIndent 1 ("Port " ++ pyIntToString p ++ "\n")).data = _
      rw [hgc, hno]
      simp [withIndent, String.data_append, optStrLine, optIntLine,
        show ("\n" : String).data = ['\n'] from rfl,
        show ("" : String).data = [] from rfl]

theorem au_toDirString_data (a : SSHAuthentication)
    (hc : a.comment = none ∨ a.comment = some "")
    (hu : ∀ s, a.user = some s → cleanTok s = true)
    (hf : ∀ s, a.identity_file = some s → cleanTok s = true) :
    (SSHAuthentication.toDirString a 1).data =
      (optStrLine "User" a.user ++ optStrLine "IdentityFile" a.identity_file).flatMap
        (fun l => '\t' :: l ++ ['\n']) := by
  obtain ⟨au, ao, af, ac⟩ := a
  simp only at hc hu hf
  have hgc : genCommentStr 1 ac = "" := genCommentStr_none_or_empty 1 ac hc
  cases au with
  | none =>
    cases af with
    | none =>
      show (genCommentStr 1 ac ++ (if isNoneOrEmpty none then "" else
        withIndent 1 ("User " ++ (none : Option String).getD "" ++ "\n")) ++
        (if isNoneOrEmpty none then "" else
         withIndent 1 ("IdentityFile " ++ (none : Option String).getD "" ++ "\n"))).data = _
      rw [hgc, if_pos (by decide)]
      rfl
    | some f =>
      have hnf : isNoneOrEmpty (some f) = false := isNoneOrEmpty_false_of_clean f (hf f rfl)
      show (genCommentStr 1 ac ++ (if isNoneOrEmpty none then "" else
        withIndent 1 ("User " ++ (none : Option String).getD "" ++ "\n")) ++
        (if isNoneOrEmpty (some f) then "" else
         withIndent 1 ("IdentityFile " ++ (some f).getD "" ++ "\n"))).data = _
      rw [hgc, if_pos (by decide), hnf]
      simp [withIndent, String.data_append, optStrLine,
        show ("\n" : String).data = ['\n'] from rfl,
        show ("" : String).data = [] from rfl]
  | some u =>
    have hnu : isNoneOrEmpty (some u) = false := isNoneOrEmpty_false_of_clean u (hu u rfl)
    cases af with
    | none =>
      show (genCommentStr 1 ac ++ (if isNoneOrEmpty (some u) then "" else
        withIndent 1 ("User " ++ (some u).getD "" ++ "\n")) ++
        (if isNoneOrEmpty none then "" else
         withIndent 1 ("IdentityFile " ++ (none : Option String).getD "" ++ "\n"))).data = _
      rw [hgc, hnu]
      simp [withIndent, String.data_append, optStrLine, isNoneOrEmpty,
        show ("\n" : String).data = ['\n'] from rfl,
        show ("" : String).data = [] from rfl]
    | some f =>
      have hnf : isNoneOrEmpty (some f) = false := isNoneOrEmpty_false_of_clean f (hf f rfl)
      show (genCommentStr 1 ac ++ (if isNoneOrEmpty (some u) then "" else
        withIndent 1 ("User " ++ (some u).getD "" ++ "\n")) ++
        (if isNoneOrEmpty (some f) then "" else
         withIndent 1 ("IdentityFile " ++ (some f).getD "" ++ "\n"))).data = _
      rw [hgc, hnu, hnf]
      simp [withIndent, String.data_append, optStrLine,
        show ("\n" : String).data = ['\n'] from rfl,
        show ("" : String).data = [] from rfl]

end SshManager

namespace SshManager

set_option maxRecDepth 40000

theorem cleanExtra_parts (x : SSHExtraConfig) (hx : cleanExtra x = true) :
    ∃ k v, x.key = some k ∧ x.value = some v ∧ cleanTok k = true ∧ cleanTok v = true ∧
      (∀ c, x.comment = some c → cleanComment c = true) := by
  obtain ⟨xk, xv, xc⟩ := x
  simp only [cleanExtra, Bool.and_eq_true] at hx
  obtain ⟨⟨hkey, hval⟩, hcm⟩ := hx
  cases xk with
  | none => exact absurd hkey (by decide)
  | some k =>
    cases xv with
    | none => exact absurd hval (by decide)
    | some v =>
      simp only [Bool.and_eq_true] at hkey
      refine ⟨k, v, rfl, rfl, hkey.1.1.1.1, hval, ?_⟩
      intro c hc
      simp only at hc
      subst hc
      exact hcm

theorem renderExtras_clean (xs : List SSHExtraConfig) (hxs : ∀ x ∈ xs, cleanExtra x = true) :
    renderExtras 1 xs =
      .ok (String.mk ((xs.flatMap exLines).flatMap (fun l => '\t' :: l ++ ['\n']))) := by
  induction xs with
  | nil => rfl
  | cons x xs ih =>
    obtain ⟨k, v, hk, hv, hkc, hvc, hcc⟩ := cleanExtra_parts x (hxs x (by simp))
    obtain ⟨xk, xv, xc⟩ := x
    simp only at hk hv
    subst hk
    subst hv
    rw [renderExtras]
    rw [show SSHExtraConfig.toDirString ⟨some k, some v, xc⟩ 1 =
      .ok (genCommentStr 1 xc ++ withIndent 1 (k ++ " " ++ v ++ "\n")) from rfl]
    rw [except_ok_bind]
    rw [ih (fun u hu => hxs u (by simp [hu]))]
    rw [except_ok_bind]
    congr 1
    apply string_ext
    cases xc with
    | none =>
      rw [show genCommentStr 1 none = "" from rfl]
      simp [withIndent, String.data_append, exLines, List.flatMap_cons,
        List.flatMap_append,
        show ("\n" : String).data = ['\n'] from rfl,
        show ("" : String).data = [] from rfl,
        show (" " : String).data = [' '] from rfl]
    | some c =>
      have hcm : cleanComment c = true := hcc c rfl
      rw [show genCommentStr 1 (some c) =
        (if isNoneOrEmpty (some c) then "" else withIndent 1 ("# " ++ c ++ "\n"))
        from rfl]
      rw [isNoneOrEmpty_false_of_comment c hcm]
      simp [withIndent, String.data_append, exLines, List.flatMap_cons,
        List.flatMap_append,
        show ("\n" : String).data = ['\n'] from rfl,
        show ("" : String).data = [] from rfl,
        show (" " : String).data = [' '] from rfl]

theorem suffix_line_fact (pre : String) (s : String)
    (hne : s.data ≠ []) (hlast : ∀ c, s.data.getLast? = some c → pyIsSpace c = false) :
    (pre ++ s).data ≠ [] ∧
      (∀ c, (pre ++ s).data.getLast? = some c → pyIsSpace c = false) := by
  rw [String.data_append]
  constructor
  · simp [hne]
  · intro c hc
    rw [getLast?_append_right _ _ hne] at hc
    exact hlast c hc

theorem dirLines_facts (cfg : SSHHostConfig) (hclean : cleanCfg cfg = true) :
    ∀ l ∈ dirLines cfg, l ≠ [] ∧ (∀ c, l.getLast? = some c → pyIsSpace c = false) := by
  obtain ⟨_, hhn, hus, hidf, hxs⟩ := cleanCfg_parts cfg hclean
  intro l hl
  rw [dirLines] at hl
  simp only [List.mem_append] at hl
  rcases hl with h | h | h | h | h
  · rw [optStrLine.eq_def] at h
    match hn : cfg.endpoint.hostname with
    | none =>
      rw [hn] at h
      cases h
    | some s =>
      rw [hn] at h
      simp only [List.mem_singleton] at h
      subst h
      exact suffix_line_fact ("HostName" ++ " ") s
        (cleanTok_data_ne_nil s (hhn s hn)) (cleanTok_last_not_space s (hhn s hn))
  · rw [optIntLine.eq_def] at h
    match hn : cfg.endpoint.port with
    | none =>
      rw [hn] at h
      cases h
    | some p =>
      rw [hn] at h
      simp only [List.mem_singleton] at h
      subst h
      exact suffix_line_fact ("Port" ++ " ") (pyIntToString p)
        (cleanTok_data_ne_nil _ (cleanTok_intToString p))
        (cleanTok_last_not_space _ (cleanTok_intToString p))
  · rw [optStrLine.eq_def] at h
    match hn : cfg.authentication.user with
    | none =>
      rw [hn] at h
      cases h
    | some s =>
      rw [hn] at h
      simp only [List.mem_singleton] at h
      subst h
      exact suffix_line_fact ("User" ++ " ") s
        (cleanTok_data_ne_nil s (hus s hn)) (cleanTok_last_not_space s (hus s hn))
  · rw [optStrLine.eq_def] at h
    match hn : cfg.authentication.identity_file with
    | none =>
      rw [hn] at h
      cases h
    | some s =>
      rw [hn] at h
      simp only [List.mem_singleton] at h
      subst h
      exact suffix_line_fact ("IdentityFile" ++ " ") s
        (cleanTok_data_ne_nil s (hidf s hn)) (cleanTok_last_not_space s (hidf s hn))
  · obtain ⟨x, hxmem, hlx⟩ := List.mem_flatMap.mp h
    obtain ⟨k, v, hk, hv, hkc, hvc, hcc⟩ := cleanExtra_parts x (hxs x hxmem)
    rw [exLines] at hlx
    rcases List.mem_append.mp hlx with h2 | h2
    · match hc : x.comment with
      | none =>
        rw [hc] at h2
        cases h2
      | some c =>
        rw [hc] at h2
        simp only [List.mem_singleton] at h2
        subst h2
        obtain ⟨_, _, hdne, hdlast⟩ := cleanComment_facts c (hcc c hc)
        exact suffix_line_fact "# " c hdne hdlast
    · simp only [List.mem_singleton] at h2
      subst h2
      rw [hv]
      exact suffix_line_fact ((x.key.getD "") ++ " ") v
        (cleanTok_data_ne_nil v hvc) (cleanTok_last_not_space v hvc)

theorem flat_lineSeg_last (L : List (List Char))
    (hL : ∀ l ∈ L, l ≠ [] ∧ (∀ c, l.getLast? = some c → pyIsSpace c = false)) :
    ∀ (X : List Char), (∀ c, X.getLast? = some c → pyIsSpace c = false) →
      ∀ c, (X ++ L.flatMap (fun l => '\n' :: '\t' :: l)).getLast? = some c →
        pyIsSpace c = false := by
  induction L with
  | nil =>
    intro X hX c hc
    rw [List.flatMap_nil, List.append_nil] at hc
    exact hX c hc
  | cons l L ih =>
    intro X hX c hc
    rw [List.flatMap_cons, ← List.append_assoc] at hc
    apply ih (fun u hu => hL u (by simp [hu])) (X ++ ('\n' :: '\t' :: l)) ?_ c hc
    intro u hu
    obtain ⟨hlne, hllast⟩ := hL l (by simp)
    rw [getLast?_append_right _ _ (by simp)] at hu
    rw [show ('\n' :: '\t' :: l) = ['\n', '\t'] ++ l from rfl,
      getLast?_append_right _ _ hlne] at hu
    exact hllast u hu

end SshManager

namespace SshManager

set_option maxRecDepth 40000

theorem toDirString_clean (cfg : SSHHostConfig) (hclean : cleanCfg cfg = true)
    (nm : String) (hnm : cfg.name = some nm) :
    cfg.toDirString 0 = .ok (String.mk (("Host " ++ nm).data ++ '\n' ::
      (dirLines cfg).flatMap (fun l => '\t' :: l ++ ['\n']))) := by
  obtain ⟨hcm, hec, hac⟩ := cleanCfg_comments cfg hclean
  obtain ⟨_, hhn, hus, hidf, hxs⟩ := cleanCfg_parts cfg hclean
  have hep := ep_toDirString_data cfg.endpoint hec hhn
  have hau := au_toDirString_data cfg.authentication hac hus hidf
  obtain ⟨nopt, cm, e, a, xs⟩ := cfg
  simp only at hnm hcm hep hau hxs
  subst hnm
  subst hcm
  show (renderExtras 1 xs >>= fun extras =>
    .ok (hostCommentStr 0 none ++ withIndent 0 ("Host " ++ nm ++ "\n") ++
      SSHEndpoint.toDirString e 1 ++ SSHAuthentication.toDirString a 1 ++ extras)) = _
  rw [renderExtras_clean xs hxs, except_ok_bind]
  congr 1
  apply string_ext
  simp only [String.data_append, hep, hau,
    show (hostCommentStr 0 none) = "" from rfl,
    show ("" : String).data = [] from rfl,
    show ("\n" : String).data = ['\n'] from rfl]
  rw [show withIndent 0 ("Host " ++ nm ++ "\n") = "Host " ++ nm ++ "\n" from by
    rw [withIndent]
    show String.mk [] ++ _ = _
    apply string_ext
    rw [String.data_append]
    rfl]
  rw [show dirLines ⟨some nm, none, e, a, xs⟩ =
    optStrLine "HostName" e.hostname ++
    (optIntLine "Port" e.port ++
     (optStrLine "User" a.user ++
      (optStrLine "IdentityFile" a.identity_file ++ xs.flatMap exLines))) from rfl]
  simp [String.data_append, List.flatMap_append, List.append_assoc,
    show ("\n" : String).data = ['\n'] from rfl]

theorem block_clean (cfg : SSHHostConfig) (hclean : cleanCfg cfg = true) :
    (cfg.toDirString 0).map pyRstrip = .ok (String.mk (segsData (entrySegs cfg))) := by
  obtain ⟨nm, hnm, hnmc⟩ := cleanCfg_name_some cfg hclean
  rw [toDirString_clean cfg hclean nm hnm]
  show Except.ok (pyRstrip (String.mk (("Host " ++ nm).data ++ '\n' ::
    (dirLines cfg).flatMap (fun l => '\t' :: l ++ ['\n'])))) = _
  congr 1
  apply string_ext
  show pyRstripData (("Host " ++ nm).data ++ '\n' ::
    (dirLines cfg).flatMap (fun l => '\t' :: l ++ ['\n'])) = (segsData (entrySegs cfg))
  rw [segsData_entrySegs_lines cfg nm hnm]
  rw [line_shift (dirLines cfg)]
  rw [← List.append_assoc]
  apply pyRstripData_append_nl
  apply flat_lineSeg_last (dirLines cfg) (dirLines_facts cfg hclean)
  intro c hc
  rw [String.data_append] at hc
  rw [getLast?_append_right _ _ (cleanTok_data_ne_nil nm hnmc)] at hc
  exact cleanTok_last_not_space nm hnmc c hc

end SshManager

namespace SshManager

set_option maxRecDepth 40000

theorem mapM_blocks (l : List SSHHostConfig) (hclean : ∀ cfg ∈ l, cleanCfg cfg = true) :
    l.mapM (fun cfg => (cfg.toDirString 0).map pyRstrip) =
      .ok (l.map (fun cfg => String.mk (segsData (entrySegs cfg)))) := by
  induction l with
  | nil => rfl
  | cons c l ih =>
    rw [List.mapM_cons, block_clean c (hclean c (by simp)),
      ih (fun u hu => hclean u (by simp [hu]))]
    rfl

theorem pyJoin_doc_data (x : String) (blocks : List String) :
    (pyJoin "\n" (x :: (blocks.flatMap (fun b => ["", b]) ++ [""]))).data =
      x.data ++ (blocks.flatMap (fun b => '\n' :: '\n' :: b.data) ++ ['\n']) := by
  induction blocks generalizing x with
  | nil =>
    show (x ++ "\n" ++ "").data = _
    simp [String.data_append,
      show ("\n" : String).data = ['\n'] from rfl,
      show ("" : String).data = [] from rfl]
  | cons b bs ih =>
    show (x ++ "\n" ++ ("" ++ "\n" ++
      pyJoin "\n" (b :: (bs.flatMap (fun b => ["", b]) ++ [""])))).data = _
    simp only [String.data_append, ih b, List.flatMap_cons,
      show ("\n" : String).data = ['\n'] from rfl,
      show ("" : String).data = [] from rfl]
    simp [List.append_assoc]

theorem segsData_docSegs_data (l : List SSHHostConfig) :
    segsData (docSegs l) =
      sentinel.data ++ (l.flatMap (fun c => '\n' :: '\n' :: segsData (entrySegs c)) ++
        ['\n']) := by
  rw [docSegs]
  rw [segsData_cons, segsData_append]
  rw [show segData (Seg.tok ⟨.comment, sentinel⟩) = sentinel.data from rfl]
  rw [show segsData [Seg.ws ['\n']] = ['\n'] from rfl]
  congr 2
  induction l with
  | nil => rfl
  | cons c l ih =>
    rw [List.flatMap_cons, segsData_append, segsData_cons, ih, List.flatMap_cons]
    rw [show segData (Seg.ws ['\n', '\n']) = ['\n', '\n'] from rfl]
    simp

theorem render_clean (entries : List SSHHostConfig)
    (hclean : ∀ cfg ∈ sortConfigs entries, cleanCfg cfg = true) :
    render_ssh_config entries =
      .ok (String.mk (segsData (docSegs (sortConfigs entries)))) := by
  show ((sortConfigs entries).mapM (fun cfg => (cfg.toDirString 0).map pyRstrip) >>=
    fun blocks =>
      .ok (pyJoin "\n" (sentinel :: (blocks.flatMap (fun b => ["", b]) ++ [""])))) = _
  rw [mapM_blocks _ hclean, except_ok_bind]
  congr 1
  apply string_ext
  rw [pyJoin_doc_data sentinel]
  rw [segsData_docSegs_data]
  congr 2
  rw [List.flatMap_map]

theorem mem_insertByName (y x : SSHHostConfig) (acc : List SSHHostConfig)
    (h : y ∈ insertByName x acc) : y = x ∨ y ∈ acc := by
  induction acc with
  | nil =>
    rw [insertByName] at h
    simp only [List.mem_singleton] at h
    exact Or.inl h
  | cons a as ih =>
    rw [insertByName] at h
    by_cases hlt : pyStrLt (sortKey x) (sortKey a)
    · rw [if_pos hlt] at h
      rcases List.mem_cons.mp h with h | h
      · exact Or.inl h
      · exact Or.inr h
    · rw [if_neg hlt] at h
      rcases List.mem_cons.mp h with h | h
      · exact Or.inr (by simp [h])
      · rcases ih h with h | h
        · exact Or.inl h
        · exact Or.inr (by simp [h])

theorem mem_foldl_insert (l : List SSHHostConfig) :
    ∀ (acc : List SSHHostConfig) (y : SSHHostConfig),
      y ∈ l.foldl (fun a c => insertByName c a) acc → y ∈ l ∨ y ∈ acc := by
  induction l with
  | nil =>
    intro acc y h
    exact Or.inr h
  | cons c l ih =>
    intro acc y h
    rw [List.foldl_cons] at h
    rcases ih _ y h with h | h
    · exact Or.inl (by simp [h])
    · rcases mem_insertByName y c acc h with h | h
      · exact Or.inl (by simp [h])
      · exact Or.inr h

theorem mem_sortConfigs (l : List SSHHostConfig) (y : SSHHostConfig)
    (h : y ∈ sortConfigs l) : y ∈ l := by
  rcases mem_foldl_insert l [] y h with h | h
  · exact h
  · cases h

end SshManager

namespace SshManager

set_option maxRecDepth 40000

/-- Full round trip for clean entries: rendering then parsing returns the
name-sorted entry list. -/
theorem roundtrip_clean (entries : List SSHHostConfig)
    (hclean : ∀ cfg ∈ entries, cleanCfg cfg = true) :
    (render_ssh_config entries).bind parse_ssh_config = .ok (sortConfigs entries) := by
  have hsorted : ∀ cfg ∈ sortConfigs entries, cleanCfg cfg = true :=
    fun cfg hc => hclean cfg (mem_sortConfigs entries cfg hc)
  rw [render_clean entries hsorted]
  show parse_ssh_config (String.mk (segsData (docSegs (sortConfigs entries)))) = _
  show (lexString (String.mk (segsData (docSegs (sortConfigs entries)))) >>= fun toks =>
    parseTopAux toks.length toks) = _
  have hlex : lexString (String.mk (segsData (docSegs (sortConfigs entries)))) =
      .ok (docToks (sortConfigs entries)) :=
    lex_docSegs (sortConfigs entries) hsorted
  rw [hlex, except_ok_bind]
  exact parseTop_doc (sortConfigs entries) hsorted

/-- C1 (counterexample): a one-entry list with the non-empty, duplicate-free
name `a b` renders successfully, but parsing the rendered text fails (the
name is split into two tokens), so the round trip does not return the
sorted input list. -/
theorem claim_c1_counterexample :
    ∃ entries : List SSHHostConfig,
      (∀ cfg ∈ entries, cfg.name ≠ none ∧ cfg.name ≠ some "") ∧
      (entries.map SSHHostConfig.name).Nodup ∧
      (render_ssh_config entries).bind parse_ssh_config ≠ .ok (sortConfigs entries) :=
  ⟨[⟨some "a b", none, ⟨some "a", none, none⟩, ⟨none, none, none, none⟩, []⟩],
    by decide⟩

/-- C1 (amended): for entries whose fields are clean — single-token names
and values, no host comment, component comments exactly as the parser
reproduces them, no original identity file, extra keys distinct from the
four recognized keys, strip-invariant newline-free extra comments — with
non-empty, duplicate-free names, `parse(render_document(entries))` returns
exactly the input list in the name-sorted order `render_document`
applies. -/
theorem claim_c1_amended (entries : List SSHHostConfig)
    (hclean : ∀ cfg ∈ entries, cleanCfg cfg = true)
    (hnames : ∀ cfg ∈ entries, cfg.name ≠ none ∧ cfg.name ≠ some "")
    (hnodup : (entries.map SSHHostConfig.name).Nodup) :
    (render_ssh_config entries).bind parse_ssh_config = .ok (sortConfigs entries) :=
  roundtrip_clean entries hclean

/-- Concrete entry list exercising the amended C1 round trip. -/
def c1Entries : List SSHHostConfig :=
  [⟨some "x", none, ⟨some "h1", some 22, some ""⟩,
    ⟨some "u", none, some "idf", some ""⟩,
    [⟨some "Foo", some "bar", some "note"⟩]⟩,
   ⟨some "b", none, ⟨none, none, none⟩, ⟨none, none, none, none⟩, []⟩]

/-- Witness for the amended C1 theorem at a concrete two-entry list with
endpoint, authentication and extra directives. -/
theorem claim_c1_amended_witness :
    (∀ cfg ∈ c1Entries, cleanCfg cfg = true) ∧
    (∀ cfg ∈ c1Entries, cfg.name ≠ none ∧ cfg.name ≠ some "") ∧
    (c1Entries.map SSHHostConfig.name).Nodup ∧
    (render_ssh_config c1Entries).bind parse_ssh_config = .ok (sortConfigs c1Entries) :=
  ⟨by decide, by decide, by decide,
   claim_c1_amended c1Entries (by decide) (by decide) (by decide)⟩

end SshManager
